import Mathlib

/-!
Verification of the green-tree core of `rowan` (files `src/green/node.rs`,
`src/green/builder.rs`).

The development has two layers.

Layer 1, the structural layer, models green trees as pure inductive values:
a `GreenTree` is either a token (kind, text) or a node (kind, cached text
length, children with precomputed offsets).  `GreenNode.new`, the builder
(`GreenNodeBuilder`), and `child_at_range` are translated here.  Sharing of
allocations is invisible at this layer; it is handled by layer 2.

Layer 2, the heap layer, models allocations explicitly: a `Heap` is an
append-only store of node and token allocations addressed by index, a child
slot of a node allocation stores the index of the child allocation, and the
`NodeCache` tables hold allocation indices.  Reference counts (`strong_count`
of the `ThinArc` handles) are derived from the object graph: the count of an
allocation is the number of handles held by external roots, the cache tables,
the gc worklist, plus the number of child slots of live (reachable)
allocations pointing at it.  `NodeCache::node/token/gc` and
`GreenNodeData::replace_child` are translated at this layer.

Machine integers: `TextSize` is a `u32` in the source; all texts involved are
tiny and no arithmetic here can overflow, so text sizes are modelled as `Nat`.
`SyntaxKind` is an opaque `u16` tag, modelled as `Nat`.

Token text: `src/green/token.rs` is not part of the given sources.  Modelled
from the spec: a token is an immutable (kind, text) pair compared by value,
whose text length is the length of its text.
-/

/-- `SyntaxKind`: opaque tag (a `u16` in the source, never interpreted). -/
abbrev SyntaxKind := Nat

/-- Structural green tree.  `token` is `GreenToken` (modelled from the spec:
a (kind, text) pair; `text_len` is the length of the text).  `node` is
`GreenNodeData`: kind, the cached aggregate `text_len` from `GreenNodeHead`,
and the child slots; a child slot is `GreenChild`, a pair of
`offset_in_parent` and the child element (`node.rs` lines 22-26). -/
inductive GreenTree where
  | token (kind : SyntaxKind) (text : List Char)
  | node (kind : SyntaxKind) (textLen : Nat) (children : List (Nat × GreenTree))
deriving Repr

namespace GreenTree

/-- `text_len()` of an element: a node reads the cached header field
(`node.rs` line 106); a token's length is the length of its text. -/
def textLen : GreenTree → Nat
  | .token _ text => text.length
  | .node _ tl _ => tl

/-- Whether the element is a node (`NodeOrToken::Node`). -/
def isNode : GreenTree → Bool
  | .token _ _ => false
  | .node _ _ _ => true

end GreenTree

/-- The running prefix-sum loop of `GreenNode::new` (`node.rs` lines 167-175):
each child is paired with `offset_in_parent`, the accumulated length so far,
and the final accumulator is the node's `text_len`. -/
def newChildren (acc : Nat) : List GreenTree → Nat × List (Nat × GreenTree)
  | [] => (acc, [])
  | el :: rest =>
    let r := newChildren (acc + el.textLen) rest
    (r.1, (acc, el) :: r.2)

/-- `GreenNode::new(kind, children)` (`node.rs` lines 160-189): computes each
child's offset as a running prefix sum and stores the final sum as the node's
`text_len`. -/
def GreenNode.new (kind : SyntaxKind) (children : List GreenTree) : GreenTree :=
  let r := newChildren 0 children
  .node kind r.1 r.2

mutual

/-- Texts of the tokens of a tree in pre-order leaf-traversal order. -/
def leafTexts : GreenTree → List (List Char)
  | .token _ text => [text]
  | .node _ _ children => leafTextsChildren children

/-- Leaf texts of a child-slot list, in order. -/
def leafTextsChildren : List (Nat × GreenTree) → List (List Char)
  | [] => []
  | c :: rest => leafTexts c.2 ++ leafTextsChildren rest

end

/-- Leaf texts of a flat element list, in order. -/
def leafTextsList : List GreenTree → List (List Char)
  | [] => []
  | el :: rest => leafTexts el ++ leafTextsList rest

/-- A text range `[fst, snd)`; `TextRange` of the `text-size` crate.
`TextRange::at(offset, len)` is `(offset, offset + len)`. -/
abbrev TRange := Nat × Nat

/-- `TextRange::ordering(self, other)` of the `text-size` crate: `Less` if
`self` ends at or before `other` starts, `Greater` if `other` ends at or
before `self` starts, `Equal` otherwise (overlapping ranges compare equal). -/
def rangeOrdering (r other : TRange) : Ordering :=
  if r.2 ≤ other.1 then .lt
  else if other.2 ≤ r.1 then .gt
  else .eq

/-- `TextRange::contains_range(self, other)`:
`self.start ≤ other.start ∧ other.end ≤ self.end`. -/
def containsRange (r other : TRange) : Bool :=
  decide (r.1 ≤ other.1 ∧ other.2 ≤ r.2)

/-- `GreenChild::range_in_parent` (`node.rs` lines 221-225) for the child slot
at index `i` of `children` (out-of-range indices give a dummy, never consulted
in bounds-respecting callers). -/
def childRangeAt (children : List (Nat × GreenTree)) (i : Nat) : TRange :=
  let c := children.getD i (0, .token 0 [])
  (c.1, c.1 + c.2.textLen)

/-- The loop of `slice::binary_search_by`, fuel-indexed so that it reduces
definitionally; the interval `[left, right)` shrinks strictly at every
iteration, so `right - left` units of fuel are exact (see
`binarySearchByF_fuel`).  Probe `mid = left + (right-left)/2`; on `Less`
continue in `(mid, right)`, on `Greater` in `[left, mid)`, on `Equal` return
`Ok mid` (`Sum.inl`); an empty interval returns `Err left` (`Sum.inr`). -/
def binarySearchByF (f : Nat → Ordering) : Nat → Nat → Nat → Sum Nat Nat
  | 0, left, _ => .inr left
  | fuel + 1, left, right =>
    if left < right then
      let mid := left + (right - left) / 2
      match f mid with
      | .lt => binarySearchByF f fuel (mid + 1) right
      | .gt => binarySearchByF f fuel left mid
      | .eq => .inl mid
    else
      .inr left

/-- `slice::binary_search_by` of the Rust standard library on `[0, len)`. -/
def binarySearchBy (f : Nat → Ordering) (len : Nat) : Sum Nat Nat :=
  binarySearchByF f len 0 len

/-- `GreenNodeData::child_at_range(range)` (`node.rs` lines 116-131): binary
search over the child slots with `TextRange::ordering`; on a miss
(`Err(it)`), fall back to `it.saturating_sub(1)` (Nat subtraction saturates);
then keep the child only if its range contains the query range, returning
`(index, offset_in_parent, element)`. -/
def childAtRangeIdx (children : List (Nat × GreenTree)) (range : TRange) : Nat :=
  match binarySearchBy (fun i => rangeOrdering (childRangeAt children i) range)
      children.length with
  | .inl i => i
  | .inr i => i - 1

/-- The rest of `child_at_range`: look up the probed slot and keep it only if
its range contains the query range, returning
`(index, offset_in_parent, element)`. -/
def childAtRange (children : List (Nat × GreenTree)) (range : TRange) :
    Option (Nat × Nat × GreenTree) :=
  match children.get? (childAtRangeIdx children range) with
  | none => none
  | some c => if containsRange (c.1, c.1 + c.2.textLen) range
      then some (childAtRangeIdx children range, c.1, c.2) else none

/-- `GreenNodeBuilder` (`builder.rs` lines 108-113): the parents stack
(head of the list is the top) of `(kind, first_child)` frames, and the flat
pending-children buffer.  The structural layer omits the cache: `NodeCache`
returns nodes and tokens structurally equal to the uncached ones (the cache
table's key equality is structural), so the shape of the built tree is not
affected by it. -/
structure Builder where
  parents : List (SyntaxKind × Nat)
  children : List GreenTree
deriving Repr

namespace Builder

/-- The freshly created builder (`GreenNodeBuilder::new`). -/
def empty : Builder := ⟨[], []⟩

/-- `GreenNodeBuilder::token(kind, text)` (`builder.rs` lines 132-136):
appends the (interned) token to the pending-children buffer. -/
def token (b : Builder) (kind : SyntaxKind) (text : List Char) : Builder :=
  { b with children := b.children ++ [.token kind text] }

/-- `GreenNodeBuilder::start_node(kind)` (`builder.rs` lines 139-143): pushes
`(kind, children.len())` onto the parents stack. -/
def startNode (b : Builder) (kind : SyntaxKind) : Builder :=
  { b with parents := (kind, b.children.length) :: b.parents }

/-- `GreenNodeBuilder::finish_node()` (`builder.rs` lines 147-153): pops the
top parent frame (panics if the stack is empty: `none`), drains the pending
children from the frame's `first_child` to the end, builds a node from
exactly that run and appends it as one pending element. -/
def finishNode (b : Builder) : Option Builder :=
  match b.parents with
  | [] => none
  | (kind, firstChild) :: rest =>
    some ⟨rest, b.children.take firstChild ++
      [GreenNode.new kind (b.children.drop firstChild)]⟩

/-- `GreenNodeBuilder::checkpoint()` (`builder.rs` lines 180-183): the current
length of the pending-children buffer. -/
def checkpoint (b : Builder) : Nat :=
  b.children.length

/-- The second assert of `start_node_at`: if a parent frame is open
(`parents.last()` in the source; the top of our stack is the list head), the
checkpoint must not precede its `first_child`. -/
def checkpointInFrame (parents : List (SyntaxKind × Nat)) (checkpoint : Nat) :
    Bool :=
  match parents with
  | [] => true
  | (_, firstChild) :: _ => decide (firstChild ≤ checkpoint)

/-- `GreenNodeBuilder::start_node_at(checkpoint, kind)` (`builder.rs` lines
187-203): panics (`none`) if the checkpoint exceeds the buffer length, or if
a parent frame is open and the checkpoint precedes its `first_child`;
otherwise pushes `(kind, checkpoint)` onto the parents stack. -/
def startNodeAt (b : Builder) (checkpoint : Nat) (kind : SyntaxKind) :
    Option Builder :=
  if checkpoint ≤ b.children.length ∧ checkpointInFrame b.parents checkpoint then
    some ⟨(kind, checkpoint) :: b.parents, b.children⟩
  else none

/-- `GreenNodeBuilder::finish()` (`builder.rs` lines 208-215): asserts that
exactly one pending element remains, pops it, and panics (`none`) unless it
is a node. -/
def finish (b : Builder) : Option GreenTree :=
  match b.children with
  | [el] => if el.isNode then some el else none
  | _ => none

end Builder

/-- One builder call, for quantifying over call sequences.  A checkpoint
argument is carried as its underlying index (`Checkpoint` is a plain index
into the pending buffer, `builder.rs` line 105). -/
inductive BOp where
  | tok (kind : SyntaxKind) (text : List Char)
  | startN (kind : SyntaxKind)
  | finishN
  | startAt (checkpoint : Nat) (kind : SyntaxKind)
deriving Repr

/-- Run a sequence of builder calls; `none` as soon as one panics. -/
def runOps (b : Builder) : List BOp → Option Builder
  | [] => some b
  | op :: rest =>
    match op with
    | .tok k t => runOps (b.token k t) rest
    | .startN k => runOps (b.startNode k) rest
    | .finishN =>
      match b.finishNode with
      | none => none
      | some b2 => runOps b2 rest
    | .startAt cp k =>
      match b.startNodeAt cp k with
      | none => none
      | some b2 => runOps b2 rest

/-- The text fragments passed to `token()` in a call sequence, in order. -/
def tokenFragments : List BOp → List (List Char)
  | [] => []
  | .tok _ t :: rest => t :: tokenFragments rest
  | _ :: rest => tokenFragments rest

/-- The child slots of an element (empty for a token). -/
def GreenTree.childSlots : GreenTree → List (Nat × GreenTree)
  | .token _ _ => []
  | .node _ _ cs => cs

/-- Dummy child slot, used as the default of out-of-range list reads. -/
def dummyChild : Nat × GreenTree := (0, .token 0 [])

/-- The sum of the text lengths of the first `i` elements: the
`offset_in_parent` that `GreenNode::new` assigns to child `i` (and, at
`i = length`, the node's `text_len`). -/
def offsetSum (els : List GreenTree) (i : Nat) : Nat :=
  ((els.take i).map GreenTree.textLen).sum


/-!
## Layer 2: the heap model

Allocations are explicit: a `Heap` is an append-only store of node and token
allocations addressed by index.  An index plays the role of a `ThinArc`
pointer, so "the same shared allocation" is "the same index", and the strong
count of an allocation is derived from the object graph (see
`strongCountN`).  The heap is never mutated at an existing index; dropping a
handle is modelled by the handle disappearing from the root multiset, and an
allocation is freed exactly when it becomes unreachable from every root.
-/

/-- A `GreenToken` allocation.  Modelled from the spec
(`src/green/token.rs` is not among the given sources): an immutable
(kind, text) pair compared by value. -/
structure TokenData where
  kind : SyntaxKind
  text : List Char
deriving Repr, DecidableEq

/-- An owning handle stored in a child slot: a `GreenNode` or `GreenToken`
pointer, modelled as the index of the target allocation. -/
inductive ChildRef where
  | node (id : Nat)
  | token (id : Nat)
deriving Repr, DecidableEq

/-- A `GreenNodeData` allocation: the `GreenNodeHead` (kind, text_len) and
the child slots, each pairing `offset_in_parent` with the child handle. -/
structure NodeData where
  kind : SyntaxKind
  textLen : Nat
  children : List (Nat × ChildRef)
deriving Repr, DecidableEq

/-- The allocation store.  Append-only: an index, once valid, always
denotes the same immutable allocation. -/
structure Heap where
  nodes : List NodeData
  tokens : List TokenData
deriving Repr, DecidableEq

/-- Dummy node allocation for out-of-range reads. -/
def dummyNode : NodeData := ⟨0, 0, []⟩

/-- `text_len()` of the element behind a handle: a node reads its stored
header field, a token the length of its text. -/
def Heap.refTextLen (h : Heap) : ChildRef → Nat
  | .node id => (h.nodes.getD id dummyNode).textLen
  | .token id => (h.tokens.getD id ⟨0, []⟩).text.length

/-- A handle points at an existing allocation. -/
def refValid (h : Heap) : ChildRef → Prop
  | .node id => id < h.nodes.length
  | .token id => id < h.tokens.length

/-- The prefix-sum loop of `GreenNode::new` at the heap level (`node.rs`
lines 167-175): pair each child handle with its `offset_in_parent` and
return the total text length. -/
def newChildrenH (h : Heap) (acc : Nat) : List ChildRef → Nat × List (Nat × ChildRef)
  | [] => (acc, [])
  | c :: rest =>
    let r := newChildrenH h (acc + h.refTextLen c) rest
    (r.1, (acc, c) :: r.2)

/-- `GreenNode::new` at the heap level: one fresh allocation holding the
header and the offset-annotated child slots; returns the extended heap and
the new allocation's index. -/
def Heap.newNode (h : Heap) (kind : SyntaxKind) (children : List ChildRef) :
    Heap × Nat :=
  let r := newChildrenH h 0 children
  ({ h with nodes := h.nodes ++ [⟨kind, r.1, r.2⟩] }, h.nodes.length)

/-- `GreenToken::new` at the heap level (modelled from the spec: one fresh
(kind, text) allocation). -/
def Heap.newToken (h : Heap) (kind : SyntaxKind) (text : List Char) :
    Heap × Nat :=
  ({ h with tokens := h.tokens ++ [⟨kind, text⟩] }, h.tokens.length)

/-- The node children of a node allocation (`child.into_node()` hits). -/
def nodeChildIds (h : Heap) (nid : Nat) : List Nat :=
  (h.nodes.getD nid dummyNode).children.filterMap (fun s =>
    match s.2 with
    | .node m => some m
    | .token _ => none)

/-- Serialization of a token allocation's value, used to realize the
by-value equality (`PartialEq`) of the cache tables' keys as a decidable
equality of flat words. -/
def serTok (td : TokenData) : List Nat :=
  [0, td.kind, td.text.length] ++ td.text.map Char.toNat

/-- Serialize the children of a node: offsets interleaved with serialized
child values (Rust's derived equality on `GreenChild` compares
`offset_in_parent` and the child).  `none` propagates a failed read. -/
def traverseSlots (f : ChildRef → Option (List Nat)) :
    List (Nat × ChildRef) → Option (List Nat)
  | [] => some []
  | s :: rest =>
    match f s.2, traverseSlots f rest with
    | some e, some r => some ([s.1] ++ e ++ r)
    | _, _ => none

/-- Serialization of a node allocation's structural value
(header plus children, recursively), fuel-indexed; under `Heap.Wf` a node's
children have strictly smaller indices, so fuel `nid + 1` is exact.  Two
allocations are structurally equal (the `Eq` used by the cache's hash
tables) iff their serializations are equal and defined. -/
def serNode (h : Heap) : Nat → Nat → Option (List Nat)
  | 0, _ => none
  | fuel + 1, nid =>
    match h.nodes.get? nid with
    | none => none
    | some nd =>
      match traverseSlots (fun c =>
          match c with
          | .token t => (h.tokens.get? t).map serTok
          | .node m => serNode h fuel m) nd.children with
      | none => none
      | some body => some ([1, nd.kind, nd.textLen, nd.children.length] ++ body)

/-- Serialization of the element behind a handle. -/
def serRef (h : Heap) (fuel : Nat) : ChildRef → Option (List Nat)
  | .token t => (h.tokens.get? t).map serTok
  | .node m => serNode h fuel m

/-- Well-formed heap: child handles of every node allocation point at
strictly earlier node allocations (the heap is built bottom-up) or at
existing token allocations. -/
def Heap.Wf (h : Heap) : Prop :=
  ∀ nid nd, h.nodes.get? nid = some nd → ∀ s ∈ nd.children,
    (∀ m, s.2 = ChildRef.node m → m < nid) ∧
    (∀ t, s.2 = ChildRef.token t → t < h.tokens.length)

/-- `NodeCache` (`builder.rs` lines 8-12): the two intern tables.  A table
is the list of interned allocation indices; the key equality of the real
hash tables is the structural equality realized by `serNode`/`serTok`.
Every entry holds one owning handle. -/
structure NodeCache where
  nodes : List Nat
  tokens : List Nat
deriving Repr, DecidableEq

/-- `NodeCache::node(kind, children)` (`builder.rs` lines 15-34): build the
candidate node; if its child count is at most 3, look up-or-insert by
structural equality and return the canonical entry; otherwise return the
fresh uninterned node.  (On a hit the candidate allocation is dropped in the
source; here it merely stays unreachable.) -/
def NodeCache.node (c : NodeCache) (h : Heap) (kind : SyntaxKind)
    (children : List ChildRef) : Heap × NodeCache × Nat :=
  let r := h.newNode kind children
  let h2 := r.1
  let nid := r.2
  if children.length ≤ 3 then
    match c.nodes.find? (fun tid =>
        decide (serNode h2 h2.nodes.length tid = serNode h2 h2.nodes.length nid)) with
    | some tid => (h2, c, tid)
    | none => (h2, { c with nodes := c.nodes ++ [nid] }, nid)
  else
    (h2, c, nid)

/-- `NodeCache::token(kind, text)` (`builder.rs` lines 36-39): build the
candidate token and look up-or-insert unconditionally by value. -/
def NodeCache.token (c : NodeCache) (h : Heap) (kind : SyntaxKind)
    (text : List Char) : Heap × NodeCache × Nat :=
  let r := h.newToken kind text
  let h2 := r.1
  let tid := r.2
  match c.tokens.find? (fun t =>
      decide (h2.tokens.get? t = h2.tokens.get? tid)) with
  | some t0 => (h2, c, t0)
  | none => (h2, { c with tokens := c.tokens ++ [tid] }, tid)

/-- Owning handles held outside the cache: retained trees and locals. -/
structure ExtRefs where
  nodes : List Nat
  tokens : List Nat
deriving Repr, DecidableEq

/-- One closure step of node reachability: every member plus the node
children of every member. -/
def reachStep (h : Heap) (s : List Nat) : List Nat :=
  s ++ s.flatMap (nodeChildIds h)

/-- Node allocations reachable from a list of directly held node handles.
`h.nodes.length` closure steps are enough for any heap of that size. -/
def reachSet (h : Heap) (roots : List Nat) : List Nat :=
  Nat.iterate (reachStep h) h.nodes.length roots

/-- Each live (reachable) node allocation, listed once. -/
def liveNodes (h : Heap) (roots : List Nat) : List Nat :=
  (List.range h.nodes.length).filter (fun m => decide (m ∈ reachSet h roots))

/-- Number of child slots of live node allocations holding the given
handle.  Live allocations are exactly the unfreed ones, so this counts the
owning references into the target held by parents. -/
def slotRefCount (h : Heap) (roots : List Nat) (c : ChildRef) : Nat :=
  ((liveNodes h roots).map (fun m =>
    (h.nodes.getD m dummyNode).children.countP (fun s => decide (s.2 = c)))).sum

/-- `strong_count()` of a node allocation: directly held handles (external
roots, cache table, gc worklist, locals — all listed in `handles`) plus the
child slots of live allocations pointing at it. -/
def strongCountN (h : Heap) (handles : List Nat) (nid : Nat) : Nat :=
  handles.count nid + slotRefCount h handles (.node nid)

/-- `strong_count()` of a token allocation: directly held token handles
plus the token slots of live node allocations. -/
def strongCountT (h : Heap) (nodeHandles tokenHandles : List Nat) (tid : Nat) :
    Nat :=
  tokenHandles.count tid + slotRefCount h nodeHandles (.token tid)

/-- Size of the tree below a node allocation, fuel-indexed (used only to
pick a sufficient fuel for the gc worklist loop). -/
def nodeSizeF (h : Heap) : Nat → Nat → Nat
  | 0, _ => 1
  | fuel + 1, nid => 1 + ((nodeChildIds h nid).map (nodeSizeF h fuel)).sum

/-- Fuel for the gc loop: every iteration pops one worklist entry and pushes
only the popped node's children, so the total tree size of the worklist
strictly decreases. -/
def gcFuel (h : Heap) (vec : List Nat) : Nat :=
  (vec.map (nodeSizeF h h.nodes.length)).sum + 1

/-- The worklist loop of `NodeCache::gc` (`builder.rs` lines 55-66),
fuel-indexed.  State: the current node table and the worklist (head = top of
the `Vec`, so `pop` is head removal and pushing children appends them
reversed).  Pop a node; while it is held by the local, its strong count is
the direct handles (external + table + worklist + the local) plus live child
slots; if that count is at most 2 (the table's own slot plus the local),
remove it from the table by structural key (`HashMap::remove(&node)`) and
queue its node children. -/
def gcLoop (h : Heap) (ext : ExtRefs) : Nat → List Nat → List Nat → List Nat
  | 0, table, _ => table
  | _ + 1, table, [] => table
  | fuel + 1, table, n :: rest =>
    if strongCountN h (ext.nodes ++ table ++ (n :: rest)) n ≤ 2 then
      gcLoop h ext fuel
        (table.eraseP (fun tid =>
          decide (serNode h h.nodes.length tid = serNode h h.nodes.length n)))
        ((nodeChildIds h n).reverse ++ rest)
    else
      gcLoop h ext fuel table rest

/-- `NodeCache::collect_root_nodes` (`builder.rs` lines 41-45):
`drain_filter` keeps the entries with `strong_count() > 1` and yields the
removed ones, which are collected into the worklist `Vec`.  Handles only
move (table to `Vec`), so every entry's count is stable during the drain and
is judged against the original handle multiset.  The worklist is reversed
because our list head models the top of the `Vec` (`pop` end). -/
def NodeCache.collectRootNodes (c : NodeCache) (h : Heap) (ext : ExtRefs) :
    NodeCache × List Nat :=
  ({ c with nodes := c.nodes.filter (fun nid =>
      decide (1 < strongCountN h (ext.nodes ++ c.nodes) nid)) },
   (c.nodes.filter (fun nid =>
      ! decide (1 < strongCountN h (ext.nodes ++ c.nodes) nid))).reverse)

/-- `NodeCache::gc` (`builder.rs` lines 41-69).  Phase 1
(`collect_root_nodes`): keep the node-table entries with strong count above
1 (still referenced from outside the cache), drain the rest into the
worklist.  Phase 2: run the worklist loop.  Then `collect_tokens`
(`builder.rs` lines 47-49): retain the token entries with strong count above
1, where liveness of parents is judged against the already swept node
table. -/
def NodeCache.gc (c : NodeCache) (h : Heap) (ext : ExtRefs) : NodeCache :=
  let r := c.collectRootNodes h ext
  let table := gcLoop h ext (gcFuel h r.2) r.1.nodes r.2
  { nodes := table,
    tokens := c.tokens.filter (fun tid =>
      decide (1 < strongCountT h (ext.nodes ++ table) (ext.tokens ++ c.tokens) tid)) }

/-- `GreenNodeData::replace_child(idx, new_child)` (`node.rs` lines
133-143): rebuild the node with the same children except at `idx`, cloning
(sharing) every other child handle, through `GreenNode::new`. -/
def Heap.replaceChild (h : Heap) (nid : Nat) (idx : Nat) (newChild : ChildRef) :
    Heap × Nat :=
  let nd := h.nodes.getD nid dummyNode
  let children := nd.children.enum.map (fun p =>
    if p.1 = idx then newChild else p.2.2)
  h.newNode nd.kind children

/-! ## Helper lemmas -/

lemma newChildren_fst (els : List GreenTree) : ∀ acc : Nat,
    (newChildren acc els).1 = acc + (els.map GreenTree.textLen).sum := by
  induction els with
  | nil => intro acc; simp [newChildren]
  | cons e rest ih =>
    intro acc
    simp only [newChildren, List.map_cons, List.sum_cons, ih]
    omega

lemma newChildren_snd_map (els : List GreenTree) : ∀ acc : Nat,
    (newChildren acc els).2.map Prod.snd = els := by
  induction els with
  | nil => intro acc; simp [newChildren]
  | cons e rest ih => intro acc; simp [newChildren, ih]

lemma newChildren_getD (els : List GreenTree) : ∀ (acc i : Nat), i < els.length →
    (newChildren acc els).2.getD i dummyChild
      = (acc + ((els.take i).map GreenTree.textLen).sum,
         els.getD i (GreenTree.token 0 [])) := by
  induction els with
  | nil => intro acc i h; simp at h
  | cons e rest ih =>
    intro acc i h
    cases i with
    | zero => simp [newChildren]
    | succ j =>
      have hj : j < rest.length := by simpa using h
      simp only [newChildren, List.getD_cons_succ, List.take_succ_cons,
        List.map_cons, List.sum_cons, ih (acc + e.textLen) j hj]
      rw [Nat.add_assoc]

lemma takeSum_succ (els : List GreenTree) : ∀ i, i < els.length →
    ((els.take (i + 1)).map GreenTree.textLen).sum
      = ((els.take i).map GreenTree.textLen).sum
        + (els.getD i (GreenTree.token 0 [])).textLen := by
  induction els with
  | nil => intro i h; simp at h
  | cons e rest ih =>
    intro i h
    cases i with
    | zero => simp
    | succ j =>
      have hj : j < rest.length := by simpa using h
      simp only [List.take_succ_cons, List.map_cons, List.sum_cons,
        List.getD_cons_succ, ih j hj]
      omega

/-! ## Claims -/

/-- C1: for every node built by `GreenNode::new` from a finite child sequence,
the stored children are the given elements in order, child 0 (when present)
has `offset_in_parent = 0`, the offset of child `i+1` is the offset of child
`i` plus child `i`'s text length, and the node's `text_len` is the sum of all
children's text lengths (0 for a childless node). -/
theorem C1_new_offset_invariant (kind : SyntaxKind) (els : List GreenTree) :
    (GreenNode.new kind els).childSlots.map Prod.snd = els
  ∧ (0 < els.length → ((GreenNode.new kind els).childSlots.getD 0 dummyChild).1 = 0)
  ∧ (∀ i, i + 1 < els.length →
      ((GreenNode.new kind els).childSlots.getD (i + 1) dummyChild).1
        = ((GreenNode.new kind els).childSlots.getD i dummyChild).1
          + ((GreenNode.new kind els).childSlots.getD i dummyChild).2.textLen)
  ∧ (GreenNode.new kind els).textLen = (els.map GreenTree.textLen).sum := by
  refine ⟨?_, ?_, ?_, ?_⟩
  · simp [GreenNode.new, GreenTree.childSlots, newChildren_snd_map]
  · intro h0
    simp only [GreenNode.new, GreenTree.childSlots, newChildren_getD els 0 0 h0]
    simp
  · intro i hi
    have hi1 : i < els.length := by omega
    simp only [GreenNode.new, GreenTree.childSlots,
      newChildren_getD els 0 (i + 1) hi, newChildren_getD els 0 i hi1]
    have := takeSum_succ els i hi1
    omega
  · simp [GreenNode.new, GreenTree.textLen, newChildren_fst]

/-- C1 witness: the theorem applied to a concrete two-child node. -/
theorem C1_new_offset_invariant_witness :
    ((GreenNode.new 7 [GreenTree.token 0 ['a'], GreenTree.token 1 ['b', 'b']]).childSlots.getD
        1 dummyChild).1
      = ((GreenNode.new 7 [GreenTree.token 0 ['a'], GreenTree.token 1 ['b', 'b']]).childSlots.getD
          0 dummyChild).1
        + ((GreenNode.new 7 [GreenTree.token 0 ['a'],
            GreenTree.token 1 ['b', 'b']]).childSlots.getD 0 dummyChild).2.textLen :=
  (C1_new_offset_invariant 7
    [GreenTree.token 0 ['a'], GreenTree.token 1 ['b', 'b']]).2.2.1 0 (by decide)

/-- C3: opening a root, emitting token A, taking a checkpoint, emitting tokens
B and C, then `start_node_at(checkpoint, K)`, `finish_node()`, closing the
root and calling `finish()` yields `Root[A, K[B, C]]`: the `K` node covers
exactly B and C. -/
theorem C3_checkpoint_wraps_b_c :
    (let b1 := (Builder.empty.startNode 100).token 0 ['a']
     let cp := b1.checkpoint
     ((((b1.token 1 ['b']).token 2 ['c']).startNodeAt cp 200).bind
         Builder.finishNode |>.bind Builder.finishNode) |>.bind Builder.finish)
    = some (.node 100 3 [(0, .token 0 ['a']),
        (1, .node 200 2 [(0, .token 1 ['b']), (1, .token 2 ['c'])])]) := rfl

/-- C7: `start_node_at(checkpoint, kind)` panics when the checkpoint exceeds
the pending-buffer length, or when a parent frame is open and the checkpoint
precedes that frame's start index; otherwise it pushes a frame whose start
index is the checkpoint's saved length. -/
theorem C7_start_node_at_contract (b : Builder) (cp : Nat) (kind : SyntaxKind) :
    (b.children.length < cp → b.startNodeAt cp kind = none)
  ∧ (∀ k0 fc rest, b.parents = (k0, fc) :: rest → cp < fc →
      b.startNodeAt cp kind = none)
  ∧ (cp ≤ b.children.length →
      (∀ k0 fc rest, b.parents = (k0, fc) :: rest → fc ≤ cp) →
      b.startNodeAt cp kind = some ⟨(kind, cp) :: b.parents, b.children⟩) := by
  refine ⟨?_, ?_, ?_⟩
  · intro h
    simp [Builder.startNodeAt, Nat.not_le.mpr h]
  · intro k0 fc rest hp hlt
    simp [Builder.startNodeAt, Builder.checkpointInFrame, hp, Nat.not_le.mpr hlt]
  · intro hle hfc
    have hin : Builder.checkpointInFrame b.parents cp = true := by
      match hp : b.parents with
      | [] => rfl
      | (k0, fc) :: rest =>
        simp [Builder.checkpointInFrame, hfc k0 fc rest hp]
    simp [Builder.startNodeAt, hle, hin]

/-- C7 witness: the theorem applied to a concrete builder: a valid checkpoint
at index 1 with an open frame starting at 0 pushes the frame `(kind, 1)`. -/
theorem C7_start_node_at_contract_witness :
    (Builder.mk [(5, 0)] [GreenTree.token 0 ['a']]).startNodeAt 1 9
      = some ⟨[(9, 1), (5, 0)], [GreenTree.token 0 ['a']]⟩ :=
  (C7_start_node_at_contract (Builder.mk [(5, 0)] [GreenTree.token 0 ['a']]) 1 9).2.2
    (by decide) (by intro k0 fc rest hp; cases hp; decide)

/-- C9: `finish_node()` with no open parent frame panics; `finish()` with
other than exactly one pending element panics; with exactly one pending node
element, `finish()` returns it. -/
theorem C9_close_misuse_rejected :
    (∀ b : Builder, b.parents = [] → b.finishNode = none)
  ∧ (∀ b : Builder, b.children.length ≠ 1 → b.finish = none)
  ∧ (∀ (ps : List (SyntaxKind × Nat)) (k tl : Nat) (cs : List (Nat × GreenTree)),
      (Builder.mk ps [.node k tl cs]).finish = some (.node k tl cs)) := by
  refine ⟨?_, ?_, ?_⟩
  · intro b hp
    simp [Builder.finishNode, hp]
  · intro b hlen
    match hc : b.children with
    | [] => simp [Builder.finish, hc]
    | [el] => exact absurd (by rw [hc]; rfl) hlen
    | e1 :: e2 :: rest => simp [Builder.finish, hc]
  · intro ps k tl cs
    simp [Builder.finish, GreenTree.isNode]

/-- C9 witness: the theorem applied to concrete builders: `finish_node` on an
empty parents stack fails, and `finish` with two pending elements fails. -/
theorem C9_close_misuse_rejected_witness :
    (Builder.mk [] [GreenTree.token 0 ['a']]).finishNode = none
  ∧ (Builder.mk [] [GreenTree.token 0 ['a'], GreenTree.token 1 ['b']]).finish = none :=
  ⟨C9_close_misuse_rejected.1 (Builder.mk [] [GreenTree.token 0 ['a']]) rfl,
   C9_close_misuse_rejected.2.1
     (Builder.mk [] [GreenTree.token 0 ['a'], GreenTree.token 1 ['b']]) (by decide)⟩

lemma leafTextsList_append (xs ys : List GreenTree) :
    leafTextsList (xs ++ ys) = leafTextsList xs ++ leafTextsList ys := by
  induction xs with
  | nil => simp [leafTextsList]
  | cons e rest ih => simp [leafTextsList, ih]

lemma leafTextsChildren_newChildren (els : List GreenTree) : ∀ acc : Nat,
    leafTextsChildren (newChildren acc els).2 = leafTextsList els := by
  induction els with
  | nil => intro acc; simp [newChildren, leafTextsChildren, leafTextsList]
  | cons e rest ih =>
    intro acc
    simp [newChildren, leafTextsChildren, leafTextsList, ih]

lemma leafTexts_new (kind : SyntaxKind) (els : List GreenTree) :
    leafTexts (GreenNode.new kind els) = leafTextsList els := by
  simp [GreenNode.new, leafTexts, leafTextsChildren_newChildren]

lemma startNodeAt_children {b b2 : Builder} {cp : Nat} {kind : SyntaxKind}
    (h : b.startNodeAt cp kind = some b2) : b2.children = b.children := by
  unfold Builder.startNodeAt at h
  split at h
  · rw [← Option.some.inj h]
  · exact absurd h (by simp)

lemma runOps_round_trip (ops : List BOp) : ∀ b b' : Builder,
    runOps b ops = some b' →
    leafTextsList b'.children = leafTextsList b.children ++ tokenFragments ops := by
  induction ops with
  | nil =>
    intro b b' h
    simp only [runOps, Option.some.injEq] at h
    simp [← h, tokenFragments]
  | cons op rest ih =>
    intro b b' h
    match op with
    | .tok k t =>
      have h2 := ih (b.token k t) b' h
      simp only [Builder.token] at h2
      rw [h2, leafTextsList_append]
      simp [tokenFragments, leafTextsList, leafTexts]
    | .startN k =>
      have h2 := ih (b.startNode k) b' h
      simp only [Builder.startNode] at h2
      rw [h2]
      simp [tokenFragments]
    | .finishN =>
      simp only [runOps] at h
      match hfn : b.finishNode with
      | none => rw [hfn] at h; exact absurd h (by simp)
      | some b2 =>
        rw [hfn] at h
        have h2 := ih b2 b' h
        unfold Builder.finishNode at hfn
        match hp : b.parents with
        | [] => rw [hp] at hfn; exact absurd hfn (by simp)
        | (k0, fc) :: ps =>
          rw [hp] at hfn
          simp only [Option.some.injEq] at hfn
          rw [h2, ← hfn]
          have : leafTextsList (b.children.take fc) ++
              leafTextsList (b.children.drop fc) = leafTextsList b.children := by
            rw [← leafTextsList_append, List.take_append_drop]
          simp only [leafTextsList_append, leafTextsList, leafTexts_new,
            List.append_nil, tokenFragments]
          rw [this]
    | .startAt cp k =>
      simp only [runOps] at h
      match hsn : b.startNodeAt cp k with
      | none => rw [hsn] at h; exact absurd h (by simp)
      | some b2 =>
        rw [hsn] at h
        have h2 := ih b2 b' h
        rw [h2, startNodeAt_children hsn]
        simp [tokenFragments]

lemma runOps_all_tokens (ops : List BOp)
    (hops : ∀ op ∈ ops, ∃ k t, op = .tok k t) : ∀ b b' : Builder,
    runOps b ops = some b' → (∀ el ∈ b.children, el.isNode = false) →
    (∀ el ∈ b'.children, el.isNode = false) := by
  induction ops with
  | nil =>
    intro b b' h hb
    simp only [runOps, Option.some.injEq] at h
    rw [← h]; exact hb
  | cons op rest ih =>
    intro b b' h hb
    obtain ⟨k, t, rfl⟩ := hops op (by simp)
    refine ih (fun o ho => hops o (by simp [ho])) (b.token k t) b' h ?_
    intro el hel
    simp only [Builder.token, List.mem_append, List.mem_singleton] at hel
    cases hel with
    | inl h1 => exact hb el h1
    | inr h1 => rw [h1]; rfl

/-- C5: for every sequence of builder calls that completes without panicking
and whose `finish()` succeeds, the texts of the tokens of the resulting tree
in pre-order leaf-traversal order are exactly the text fragments passed to
`token()` during the build, in the same order. -/
theorem C5_round_trip (ops : List BOp) (b : Builder) (root : GreenTree)
    (hrun : runOps Builder.empty ops = some b) (hfin : b.finish = some root) :
    leafTexts root = tokenFragments ops := by
  have h := runOps_round_trip ops Builder.empty b hrun
  unfold Builder.finish at hfin
  match hc : b.children with
  | [] => rw [hc] at hfin; exact absurd hfin (by simp)
  | [el] =>
    rw [hc] at h
    have hfin2 : (if el.isNode = true then some el else none) = some root := by
      rw [hc] at hfin
      exact hfin
    have hel : el = root := by
      by_cases hn : el.isNode = true
      · rw [if_pos hn] at hfin2
        exact Option.some.inj hfin2
      · rw [if_neg hn] at hfin2
        exact absurd hfin2 (by simp)
    have hfr : leafTexts el = tokenFragments ops := by
      simpa [leafTextsList, Builder.empty] using h
    rw [← hel]
    exact hfr
  | e1 :: e2 :: es => rw [hc] at hfin; exact absurd hfin (by simp)

/-- C5 witness: the theorem applied to a concrete build (a root with token
"a" and a wrapped pair of tokens "b", "c"). -/
theorem C5_round_trip_witness :
    leafTexts (GreenTree.node 100 3 [(0, .token 0 ['a']),
        (1, .node 200 2 [(0, .token 1 ['b']), (1, .token 2 ['c'])])])
      = [['a'], ['b'], ['c']] :=
  C5_round_trip
    [.startN 100, .tok 0 ['a'], .tok 1 ['b'], .tok 2 ['c'], .startAt 1 200,
     .finishN, .finishN]
    (Builder.mk [] [GreenTree.node 100 3 [(0, .token 0 ['a']),
        (1, .node 200 2 [(0, .token 1 ['b']), (1, .token 2 ['c'])])]])
    (GreenTree.node 100 3 [(0, .token 0 ['a']),
        (1, .node 200 2 [(0, .token 1 ['b']), (1, .token 2 ['c'])])])
    rfl rfl

/-- C10: `finish()` panics when the single pending element is a token rather
than a node; consequently a build consisting solely of `token()` calls can
never produce a root. -/
theorem C10_finish_rejects_token_root :
    (∀ (ps : List (SyntaxKind × Nat)) (k : SyntaxKind) (t : List Char),
      (Builder.mk ps [.token k t]).finish = none)
  ∧ (∀ ops : List BOp, (∀ op ∈ ops, ∃ k t, op = .tok k t) →
      ∀ b : Builder, runOps Builder.empty ops = some b → b.finish = none) := by
  constructor
  · intro ps k t
    simp [Builder.finish, GreenTree.isNode]
  · intro ops hops b hrun
    have hall := runOps_all_tokens ops hops Builder.empty b hrun
      (by intro el hel; simp [Builder.empty] at hel)
    unfold Builder.finish
    match hc : b.children with
    | [] => rfl
    | [el] =>
      have := hall el (by rw [hc]; simp)
      simp [this]
    | e1 :: e2 :: es => rfl

/-- C10 witness: the theorem applied to a concrete single-token build. -/
theorem C10_finish_rejects_token_root_witness :
    (Builder.mk [] [GreenTree.token 3 ['x']]).finish = none :=
  C10_finish_rejects_token_root.2 [.tok 3 ['x']]
    (by intro op hop; simp at hop; exact ⟨3, ['x'], hop⟩)
    (Builder.mk [] [GreenTree.token 3 ['x']]) rfl

lemma newChildren_length (els : List GreenTree) : ∀ acc : Nat,
    (newChildren acc els).2.length = els.length := by
  induction els with
  | nil => intro acc; simp [newChildren]
  | cons e rest ih => intro acc; simp [newChildren, ih]

lemma childSlots_new_length (kind : SyntaxKind) (els : List GreenTree) :
    (GreenNode.new kind els).childSlots.length = els.length := by
  simp [GreenNode.new, GreenTree.childSlots, newChildren_length]

lemma offsetSum_succ (els : List GreenTree) {i : Nat} (h : i < els.length) :
    offsetSum els (i + 1)
      = offsetSum els i + (els.getD i (GreenTree.token 0 [])).textLen :=
  takeSum_succ els i h

lemma offsetSum_le_succ (els : List GreenTree) (i : Nat) :
    offsetSum els i ≤ offsetSum els (i + 1) := by
  by_cases h : i < els.length
  · rw [offsetSum_succ els h]
    omega
  · unfold offsetSum
    rw [List.take_of_length_le (by omega), List.take_of_length_le (by omega)]

lemma offsetSum_mono (els : List GreenTree) {j k : Nat} (h : j ≤ k) :
    offsetSum els j ≤ offsetSum els k := by
  induction k, h using Nat.le_induction with
  | base => exact le_refl _
  | succ n hn ih => exact ih.trans (offsetSum_le_succ els n)

lemma childSlots_new_getD (kind : SyntaxKind) (els : List GreenTree) {j : Nat}
    (h : j < els.length) :
    (GreenNode.new kind els).childSlots.getD j dummyChild
      = (offsetSum els j, els.getD j (GreenTree.token 0 [])) := by
  simp only [GreenNode.new, GreenTree.childSlots]
  have h2 := newChildren_getD els 0 j h
  rw [Nat.zero_add] at h2
  exact h2

lemma childSlots_new_get? (kind : SyntaxKind) (els : List GreenTree) {j : Nat}
    (h : j < els.length) :
    (GreenNode.new kind els).childSlots.get? j
      = some (offsetSum els j, els.getD j (GreenTree.token 0 [])) := by
  have hl : j < (GreenNode.new kind els).childSlots.length := by
    rw [childSlots_new_length]; exact h
  rw [List.get?_eq_get hl]
  have := childSlots_new_getD kind els h
  rw [List.getD_eq_get?, List.get?_eq_get hl] at this
  simp only [Option.getD_some] at this
  rw [this]

lemma childRangeAt_new (kind : SyntaxKind) (els : List GreenTree) {j : Nat}
    (h : j < els.length) :
    childRangeAt (GreenNode.new kind els).childSlots j
      = (offsetSum els j, offsetSum els (j + 1)) := by
  unfold childRangeAt
  have hg : (GreenNode.new kind els).childSlots.getD j (0, .token 0 [])
      = (offsetSum els j, els.getD j (GreenTree.token 0 [])) :=
    childSlots_new_getD kind els h
  rw [hg, offsetSum_succ els h]

lemma binarySearchByF_found (f : Nat → Ordering) (i : Nat) :
    ∀ (fuel left right : Nat), right - left ≤ fuel → left ≤ i → i < right →
    (∀ j, left ≤ j → j < i → f j = .lt) →
    (∀ j, i < j → j < right → f j = .gt) → f i = .eq →
    binarySearchByF f fuel left right = .inl i := by
  intro fuel
  induction fuel with
  | zero => intro left right hf h1 h2 _ _ _; omega
  | succ fuel ih =>
    intro left right hf h1 h2 hlt hgt heq
    have hlr : left < right := by omega
    have hmid1 : left ≤ left + (right - left) / 2 := by omega
    have hmid2 : left + (right - left) / 2 < right := by
      have := Nat.div_lt_self (show 0 < right - left by omega) Nat.one_lt_two
      omega
    simp only [binarySearchByF, if_pos hlr]
    rcases Nat.lt_trichotomy (left + (right - left) / 2) i with hc | hc | hc
    · rw [hlt _ hmid1 hc]
      refine ih (left + (right - left) / 2 + 1) right ?_ ?_ h2
        (fun j hj1 hj2 => hlt j (by omega) hj2) hgt heq
      · omega
      · omega
    · rw [hc, heq]
    · rw [hgt _ hc hmid2]
      refine ih left (left + (right - left) / 2) ?_ h1 hc hlt
        (fun j hj1 hj2 => hgt j hj1 (by omega)) heq
      omega

lemma binarySearchByF_missing (f : Nat → Ordering) (K : Nat) :
    ∀ (fuel left right : Nat), right - left ≤ fuel → left ≤ K → K ≤ right →
    (∀ j, left ≤ j → j < K → f j = .lt) →
    (∀ j, K ≤ j → j < right → f j = .gt) →
    binarySearchByF f fuel left right = .inr K := by
  intro fuel
  induction fuel with
  | zero =>
    intro left right hf h1 h2 _ _
    simp only [binarySearchByF]
    exact congrArg Sum.inr (by omega)
  | succ fuel ih =>
    intro left right hf h1 h2 hlt hgt
    by_cases hlr : left < right
    · have hmid1 : left ≤ left + (right - left) / 2 := by omega
      have hmid2 : left + (right - left) / 2 < right := by
        have := Nat.div_lt_self (show 0 < right - left by omega) Nat.one_lt_two
        omega
      simp only [binarySearchByF, if_pos hlr]
      rcases Nat.lt_or_ge (left + (right - left) / 2) K with hc | hc
      · rw [hlt _ hmid1 hc]
        refine ih (left + (right - left) / 2 + 1) right ?_ ?_ h2
          (fun j hj1 hj2 => hlt j (by omega) hj2) hgt
        · omega
        · omega
      · rw [hgt _ hc hmid2]
        refine ih left (left + (right - left) / 2) ?_ h1 hc hlt
          (fun j hj1 hj2 => hgt j hj1 (by omega))
        omega
    · simp only [binarySearchByF, if_neg hlr]
      exact congrArg Sum.inr (by omega)

lemma rangeOrdering_is_lt {a b c d : Nat} (h : b ≤ c) :
    rangeOrdering (a, b) (c, d) = .lt := by
  simp [rangeOrdering, h]

lemma rangeOrdering_is_gt {a b c d : Nat} (h1 : ¬ b ≤ c) (h2 : d ≤ a) :
    rangeOrdering (a, b) (c, d) = .gt := by
  simp [rangeOrdering, h1, h2]

lemma rangeOrdering_is_eq {a b c d : Nat} (h1 : ¬ b ≤ c) (h2 : ¬ d ≤ a) :
    rangeOrdering (a, b) (c, d) = .eq := by
  simp [rangeOrdering, h1, h2]

/-- C8: behaviour of `child_at_range` on a node built by `GreenNode::new`.
Soundness: any returned `(index, offset, element)` is a real child slot whose
span contains the query range.  Completeness: for a nonempty query range
contained in the span of child `i`, the call returns exactly child `i` with
its offset and element (such a child is unique, since sibling spans are
adjacent).  Boundary rule: an empty query range sitting exactly on the
boundary at the start of a nonempty child `i ≥ 1` resolves to the preceding
child slot `i - 1`. -/
theorem C8_child_at_range_correct (kind : SyntaxKind) (els : List GreenTree)
    (qs qe : Nat) :
    (∀ i off el,
      childAtRange (GreenNode.new kind els).childSlots (qs, qe)
          = some (i, off, el) →
      i < els.length
        ∧ (GreenNode.new kind els).childSlots.getD i dummyChild = (off, el)
        ∧ containsRange (off, off + el.textLen) (qs, qe) = true)
  ∧ (∀ i, qs < qe → i < els.length →
      containsRange (childRangeAt (GreenNode.new kind els).childSlots i)
          (qs, qe) = true →
      childAtRange (GreenNode.new kind els).childSlots (qs, qe)
        = some (i, offsetSum els i, els.getD i (GreenTree.token 0 [])))
  ∧ (∀ i, qs = qe → 1 ≤ i → i < els.length → offsetSum els i = qs →
      0 < (els.getD i (GreenTree.token 0 [])).textLen →
      childAtRange (GreenNode.new kind els).childSlots (qs, qe)
        = some (i - 1, offsetSum els (i - 1),
            els.getD (i - 1) (GreenTree.token 0 []))) := by
  refine ⟨?_, ?_, ?_⟩
  · -- soundness
    intro i off el h
    unfold childAtRange at h
    cases hg : (GreenNode.new kind els).childSlots.get?
        (childAtRangeIdx (GreenNode.new kind els).childSlots (qs, qe)) with
    | none =>
      rw [hg] at h
      exact Option.noConfusion h
    | some c =>
      rw [hg] at h
      have h2 : (if containsRange (c.1, c.1 + c.2.textLen) (qs, qe) = true
          then some (childAtRangeIdx (GreenNode.new kind els).childSlots (qs, qe),
            c.1, c.2)
          else none) = some (i, off, el) := h
      by_cases hcond : containsRange (c.1, c.1 + c.2.textLen) (qs, qe) = true
      · rw [if_pos hcond] at h2
        have h3 := Option.some.inj h2
        simp only [Prod.mk.injEq] at h3
        obtain ⟨hidx, hoff, hel⟩ := h3
        have hlen : childAtRangeIdx (GreenNode.new kind els).childSlots (qs, qe)
            < (GreenNode.new kind els).childSlots.length :=
          List.get?_eq_some.mp hg |>.1
        refine ⟨?_, ?_, ?_⟩
        · rw [← hidx]
          rw [childSlots_new_length] at hlen
          exact hlen
        · rw [← hidx, List.getD_eq_getElem?_getD, ← List.get?_eq_getElem?, hg,
            Option.getD_some, ← hoff, ← hel]
        · rw [← hoff, ← hel]
          exact hcond
      · rw [if_neg hcond] at h2
        exact Option.noConfusion h2
  · -- completeness on nonempty contained queries
    intro i hq hi hcont
    rw [childRangeAt_new kind els hi] at hcont
    simp only [containsRange, decide_eq_true_eq] at hcont
    obtain ⟨hc1, hc2⟩ := hcont
    have hidx : childAtRangeIdx (GreenNode.new kind els).childSlots (qs, qe)
        = i := by
      unfold childAtRangeIdx
      rw [binarySearchBy, childSlots_new_length,
        binarySearchByF_found _ i els.length 0 els.length (by omega) (by omega) hi
          ?_ ?_ ?_]
      · intro j _ hj
        have hjl : j < els.length := by omega
        rw [childRangeAt_new kind els hjl]
        exact rangeOrdering_is_lt ((offsetSum_mono els (by omega)).trans hc1)
      · intro j hj hjl
        rw [childRangeAt_new kind els hjl]
        refine rangeOrdering_is_gt (fun habs => ?_)
          (hc2.trans (offsetSum_mono els (by omega)))
        have : offsetSum els (i + 1) ≤ offsetSum els (j + 1) :=
          offsetSum_mono els (by omega)
        omega
      · rw [childRangeAt_new kind els hi]
        refine rangeOrdering_is_eq (fun habs => ?_) (fun habs => ?_) <;> omega
    have hctrue : containsRange (offsetSum els i,
        offsetSum els i + (els.getD i (GreenTree.token 0 [])).textLen)
        (qs, qe) = true := by
      simp only [containsRange, decide_eq_true_eq]
      rw [← offsetSum_succ els hi]
      exact ⟨hc1, hc2⟩
    unfold childAtRange
    rw [hidx, childSlots_new_get? kind els hi]
    show (if containsRange (offsetSum els i,
        offsetSum els i + (els.getD i (GreenTree.token 0 [])).textLen)
          (qs, qe) = true
      then some (i, offsetSum els i, els.getD i (GreenTree.token 0 []))
      else none) = some (i, offsetSum els i, els.getD i (GreenTree.token 0 []))
    rw [if_pos hctrue]
  · -- empty query range on the boundary at the start of child i
    intro i hqe h1 hi hoff hpos
    subst hqe
    have hidx : childAtRangeIdx (GreenNode.new kind els).childSlots (qs, qs)
        = i - 1 := by
      unfold childAtRangeIdx
      rw [binarySearchBy, childSlots_new_length,
        binarySearchByF_missing _ i els.length 0 els.length (by omega) (by omega)
          (by omega) ?_ ?_]
      · intro j _ hj
        have hjl : j < els.length := by omega
        rw [childRangeAt_new kind els hjl]
        refine rangeOrdering_is_lt ?_
        have : offsetSum els (j + 1) ≤ offsetSum els i :=
          offsetSum_mono els (by omega)
        omega
      · intro j hj hjl
        rw [childRangeAt_new kind els hjl]
        have hji : offsetSum els i ≤ offsetSum els j := offsetSum_mono els hj
        refine rangeOrdering_is_gt (fun habs => ?_) (by omega)
        have hsucc : offsetSum els (i + 1)
            = offsetSum els i + (els.getD i (GreenTree.token 0 [])).textLen :=
          offsetSum_succ els hi
        have : offsetSum els (i + 1) ≤ offsetSum els (j + 1) :=
          offsetSum_mono els (by omega)
        omega
    have him : i - 1 < els.length := by omega
    have hprev : offsetSum els (i - 1)
          + (els.getD (i - 1) (GreenTree.token 0 [])).textLen
        = offsetSum els i := by
      have h2 := offsetSum_succ els him
      have hsi : i - 1 + 1 = i := by omega
      rw [hsi] at h2
      omega
    have hctrue : containsRange (offsetSum els (i - 1),
        offsetSum els (i - 1) + (els.getD (i - 1) (GreenTree.token 0 [])).textLen)
        (qs, qs) = true := by
      simp only [containsRange, decide_eq_true_eq]
      have : offsetSum els (i - 1) ≤ offsetSum els i :=
        offsetSum_mono els (by omega)
      omega
    unfold childAtRange
    rw [hidx, childSlots_new_get? kind els him]
    show (if containsRange (offsetSum els (i - 1),
        offsetSum els (i - 1) + (els.getD (i - 1) (GreenTree.token 0 [])).textLen)
          (qs, qs) = true
      then some (i - 1, offsetSum els (i - 1), els.getD (i - 1) (GreenTree.token 0 []))
      else none)
      = some (i - 1, offsetSum els (i - 1), els.getD (i - 1) (GreenTree.token 0 []))
    rw [if_pos hctrue]

/-- C8 witness: the theorem applied to a concrete node with children of
lengths 1 and 2: the nonempty query `[1,2)` is contained in child 1 and is
resolved to child 1 with offset 1. -/
theorem C8_child_at_range_correct_witness :
    childAtRange (GreenNode.new 9 [GreenTree.token 0 ['a'],
        GreenTree.token 1 ['b', 'c']]).childSlots (1, 2)
      = some (1, 1, GreenTree.token 1 ['b', 'c']) :=
  (C8_child_at_range_correct 9
      [GreenTree.token 0 ['a'], GreenTree.token 1 ['b', 'c']] 1 2).2.1 1
    (by decide) (by decide) (by decide)

lemma newChildrenH_length (h : Heap) (cs : List ChildRef) : ∀ acc : Nat,
    (newChildrenH h acc cs).2.length = cs.length := by
  induction cs with
  | nil => intro acc; simp [newChildrenH]
  | cons c rest ih => intro acc; simp [newChildrenH, ih]

lemma newChildrenH_snd_getD (h : Heap) (cs : List ChildRef) : ∀ (acc j : Nat),
    j < cs.length →
    ((newChildrenH h acc cs).2.getD j (0, ChildRef.token 0)).2
      = cs.getD j (ChildRef.token 0) := by
  induction cs with
  | nil => intro acc j hj; simp at hj
  | cons c rest ih =>
    intro acc j hj
    cases j with
    | zero => simp [newChildrenH]
    | succ j2 =>
      have : j2 < rest.length := by simpa using hj
      simp only [newChildrenH, List.getD_cons_succ, List.getD_cons_succ]
      exact ih (acc + h.refTextLen c) j2 this

lemma enumFrom_map_replace_getD (idx : Nat) (x : ChildRef)
    (slots : List (Nat × ChildRef)) : ∀ (n j : Nat), j < slots.length →
    ((List.enumFrom n slots).map (fun p =>
        if p.1 = idx then x else p.2.2)).getD j (ChildRef.token 0)
      = if n + j = idx then x else (slots.getD j (0, ChildRef.token 0)).2 := by
  induction slots with
  | nil => intro n j hj; simp at hj
  | cons s rest ih =>
    intro n j hj
    cases j with
    | zero => simp [List.enumFrom]
    | succ j2 =>
      have hj2 : j2 < rest.length := by simpa using hj
      simp only [List.enumFrom, List.map_cons, List.getD_cons_succ,
        List.getD_cons_succ, ih (n + 1) j2 hj2]
      have : n + 1 + j2 = n + (j2 + 1) := by omega
      rw [this]

lemma getD_of_get?_eq_some {α : Type} {l : List α} {n : Nat} {a d : α}
    (h : l.get? n = some a) : l.getD n d = a := by
  rw [List.getD_eq_getElem?_getD, ← List.get?_eq_getElem?, h, Option.getD_some]

/-- C6: `replace_child(idx, x)` on a node with `idx` in bounds returns a new
node whose child handle at `idx` is `x` and whose child handle at every other
position `j` is the identical shared allocation as before; the original node
(and every other existing allocation) is unchanged by the call. -/
theorem C6_replace_child_shares (h : Heap) (nid idx : Nat) (x : ChildRef)
    (nd : NodeData) (hnd : h.nodes.get? nid = some nd)
    (hidx : idx < nd.children.length) :
    ∀ h2 r, h.replaceChild nid idx x = (h2, r) →
      ((∀ id, id < h.nodes.length → h2.nodes.get? id = h.nodes.get? id)
        ∧ h2.tokens = h.tokens)
    ∧ ∃ nd2, h2.nodes.get? r = some nd2
        ∧ nd2.kind = nd.kind
        ∧ nd2.children.length = nd.children.length
        ∧ (∀ j, j < nd.children.length → j ≠ idx →
            (nd2.children.getD j (0, ChildRef.token 0)).2
              = (nd.children.getD j (0, ChildRef.token 0)).2)
        ∧ (nd2.children.getD idx (0, ChildRef.token 0)).2 = x := by
  intro h2 r heq
  unfold Heap.replaceChild Heap.newNode at heq
  rw [getD_of_get?_eq_some hnd] at heq
  simp only [Prod.mk.injEq] at heq
  obtain ⟨hh2, hr⟩ := heq
  constructor
  · constructor
    · intro id hid
      rw [← hh2]
      show (h.nodes ++ [_]).get? id = h.nodes.get? id
      exact List.get?_append hid
    · rw [← hh2]
  · refine ⟨⟨nd.kind,
      (newChildrenH h 0 (nd.children.enum.map (fun p =>
        if p.1 = idx then x else p.2.2))).1,
      (newChildrenH h 0 (nd.children.enum.map (fun p =>
        if p.1 = idx then x else p.2.2))).2⟩, ?_, rfl, ?_, ?_, ?_⟩
    · rw [← hh2, ← hr]
      show (h.nodes ++ [_]).get? h.nodes.length = _
      exact List.get?_concat_length _ _
    · rw [newChildrenH_length, List.length_map, List.enum_length]
    · intro j hj hne
      have hjlt : j < (nd.children.enum.map (fun p =>
          if p.1 = idx then x else p.2.2)).length := by
        rw [List.length_map, List.enum_length]; exact hj
      rw [newChildrenH_snd_getD h _ 0 j hjlt]
      rw [List.enum]
      rw [enumFrom_map_replace_getD idx x nd.children 0 j hj]
      rw [if_neg (by omega)]
    · have hjlt : idx < (nd.children.enum.map (fun p =>
          if p.1 = idx then x else p.2.2)).length := by
        rw [List.length_map, List.enum_length]; exact hidx
      rw [newChildrenH_snd_getD h _ 0 idx hjlt]
      rw [List.enum]
      rw [enumFrom_map_replace_getD idx x nd.children 0 idx hidx]
      rw [if_pos (by omega)]

/-- C6 witness: the theorem applied to a concrete two-child node: position 1
keeps the identical shared token handle after replacing position 0. -/
theorem C6_replace_child_shares_witness :
    ((Heap.replaceChild ⟨[⟨5, 0, []⟩,
        ⟨6, 2, [(0, .node 0), (0, .token 0)]⟩], [⟨7, ['a', 'b']⟩]⟩
        1 0 (ChildRef.token 0)).1.nodes.get? 1
      = (Heap.mk [⟨5, 0, []⟩, ⟨6, 2, [(0, .node 0), (0, .token 0)]⟩]
          [⟨7, ['a', 'b']⟩]).nodes.get? 1) :=
  ((C6_replace_child_shares
      ⟨[⟨5, 0, []⟩, ⟨6, 2, [(0, .node 0), (0, .token 0)]⟩], [⟨7, ['a', 'b']⟩]⟩
      1 0 (ChildRef.token 0) ⟨6, 2, [(0, .node 0), (0, .token 0)]⟩ rfl
      (by decide) _ _ rfl).1.1) 1 (by decide)

lemma gcLoop_subset (h : Heap) (ext : ExtRefs) : ∀ (fuel : Nat)
    (table vec : List Nat) (x : Nat), x ∈ gcLoop h ext fuel table vec →
    x ∈ table := by
  intro fuel
  induction fuel with
  | zero => intro table vec x hx; exact hx
  | succ fuel ih =>
    intro table vec x hx
    match vec with
    | [] => exact hx
    | n :: rest =>
      unfold gcLoop at hx
      split at hx
      · exact (List.eraseP_sublist table).subset (ih _ _ x hx)
      · exact ih _ _ x hx

lemma reachStep_mono (h : Heap) {r1 r2 : List Nat}
    (hsub : ∀ x ∈ r1, x ∈ r2) : ∀ x ∈ reachStep h r1, x ∈ reachStep h r2 := by
  intro x hx
  rcases List.mem_append.mp hx with hx1 | hx1
  · exact List.mem_append.mpr (Or.inl (hsub x hx1))
  · rcases List.mem_flatMap.mp hx1 with ⟨a, ha, hxa⟩
    exact List.mem_append.mpr (Or.inr (List.mem_flatMap.mpr ⟨a, hsub a ha, hxa⟩))

lemma iterate_reachStep_mono (h : Heap) : ∀ (n : Nat) {r1 r2 : List Nat},
    (∀ x ∈ r1, x ∈ r2) →
    ∀ x ∈ Nat.iterate (reachStep h) n r1, x ∈ Nat.iterate (reachStep h) n r2 := by
  intro n
  induction n with
  | zero => intro r1 r2 hsub x hx; exact hsub x hx
  | succ n ih =>
    intro r1 r2 hsub x hx
    rw [Function.iterate_succ_apply] at hx ⊢
    exact ih (reachStep_mono h hsub) x hx

lemma reachSet_mono (h : Heap) {r1 r2 : List Nat}
    (hsub : ∀ x ∈ r1, x ∈ r2) : ∀ x ∈ reachSet h r1, x ∈ reachSet h r2 :=
  iterate_reachStep_mono h h.nodes.length hsub

lemma sum_map_filter_mono (f : Nat → Nat) (p q : Nat → Bool)
    (himp : ∀ x, p x = true → q x = true) : ∀ base : List Nat,
    ((base.filter p).map f).sum ≤ ((base.filter q).map f).sum := by
  intro base
  induction base with
  | nil => simp
  | cons b rest ih =>
    by_cases hp : p b = true
    · rw [List.filter_cons_of_pos hp, List.filter_cons_of_pos (himp b hp)]
      simpa using ih
    · rw [List.filter_cons_of_neg (by simpa using hp)]
      by_cases hq : q b = true
      · rw [List.filter_cons_of_pos hq]
        simp only [List.map_cons, List.sum_cons]
        omega
      · rw [List.filter_cons_of_neg (by simpa using hq)]
        exact ih

lemma slotRefCount_mono (h : Heap) {r1 r2 : List Nat}
    (hsub : ∀ x ∈ r1, x ∈ r2) (cr : ChildRef) :
    slotRefCount h r1 cr ≤ slotRefCount h r2 cr := by
  unfold slotRefCount liveNodes
  refine sum_map_filter_mono _ _ _ ?_ (List.range h.nodes.length)
  intro x hx
  rw [decide_eq_true_eq] at hx ⊢
  exact reachSet_mono h hsub x hx

lemma mem_gc_nodes {c : NodeCache} {h : Heap} {ext : ExtRefs} {nid : Nat}
    (hin : nid ∈ (NodeCache.gc c h ext).nodes) :
    nid ∈ c.nodes.filter (fun m =>
      decide (1 < strongCountN h (ext.nodes ++ c.nodes) m)) :=
  gcLoop_subset h ext _ _ _ nid hin

lemma cacheNode_ret (c : NodeCache) (h : Heap) (kind : SyntaxKind)
    (cs : List ChildRef) :
    (c.node h kind cs).2.2 ∈ c.nodes ∨ (c.node h kind cs).2.2 = h.nodes.length := by
  unfold NodeCache.node
  by_cases hlen : cs.length ≤ 3
  · rw [if_pos hlen]
    cases hf : c.nodes.find? (fun tid =>
        decide (serNode (h.newNode kind cs).1 (h.newNode kind cs).1.nodes.length tid
          = serNode (h.newNode kind cs).1 (h.newNode kind cs).1.nodes.length
              (h.newNode kind cs).2)) with
    | none => right; rfl
    | some tid => left; exact List.mem_of_find?_eq_some hf
  · rw [if_neg hlen]
    right
    rfl

lemma cacheToken_ret (c : NodeCache) (h : Heap) (kind : SyntaxKind)
    (text : List Char) :
    (c.token h kind text).2.2 ∈ c.tokens
      ∨ (c.token h kind text).2.2 = h.tokens.length := by
  have hunfold : c.token h kind text
      = (match c.tokens.find? (fun t =>
          decide ((h.newToken kind text).1.tokens.get? t
            = (h.newToken kind text).1.tokens.get? (h.newToken kind text).2)) with
        | some t0 => ((h.newToken kind text).1, c, t0)
        | none => ((h.newToken kind text).1,
            { c with tokens := c.tokens ++ [(h.newToken kind text).2] },
            (h.newToken kind text).2)) := rfl
  rw [hunfold]
  cases hf : c.tokens.find? (fun t =>
      decide ((h.newToken kind text).1.tokens.get? t
        = (h.newToken kind text).1.tokens.get? (h.newToken kind text).2)) with
  | none => right; rfl
  | some t0 => left; exact List.mem_of_find?_eq_some hf

/-- C2: after `gc()`, (a) every node-table entry whose only reference was the
cache itself (strong count 1: the table's own handle) is absent, and so is
every such token entry; (b) every node reachable from a retained external
tree is still reachable (the heap itself is untouched by `gc`, which only
shrinks the cache tables); (c) a subsequent `node`/`token` call can no
longer return a collected entry: its result is either a surviving table
entry or a freshly made allocation. -/
theorem C2_gc_reclamation (h : Heap) (ext : ExtRefs) (c : NodeCache) :
    (∀ nid ∈ c.nodes, strongCountN h (ext.nodes ++ c.nodes) nid = 1 →
        nid ∉ (c.gc h ext).nodes)
  ∧ (∀ tid ∈ c.tokens,
        strongCountT h (ext.nodes ++ c.nodes) (ext.tokens ++ c.tokens) tid = 1 →
        tid ∉ (c.gc h ext).tokens)
  ∧ (∀ nid, nid ∈ reachSet h ext.nodes →
        nid ∈ reachSet h (ext.nodes ++ (c.gc h ext).nodes))
  ∧ (∀ nid ∈ c.nodes, strongCountN h (ext.nodes ++ c.nodes) nid = 1 →
        nid < h.nodes.length →
        ∀ kind cs, ((c.gc h ext).node h kind cs).2.2 ≠ nid)
  ∧ (∀ tid ∈ c.tokens,
        strongCountT h (ext.nodes ++ c.nodes) (ext.tokens ++ c.tokens) tid = 1 →
        tid < h.tokens.length →
        ∀ kind text, ((c.gc h ext).token h kind text).2.2 ≠ tid) := by
  have hmain : ∀ nid ∈ c.nodes,
      strongCountN h (ext.nodes ++ c.nodes) nid = 1 → nid ∉ (c.gc h ext).nodes := by
    intro nid _ hcount hin
    have h2 := List.mem_filter.mp (mem_gc_nodes hin)
    rw [hcount] at h2
    simpa using h2.2
  have hsubtable : ∀ x ∈ (c.gc h ext).nodes, x ∈ c.nodes := by
    intro x hx
    exact (List.mem_filter.mp (mem_gc_nodes hx)).1
  have htok : ∀ tid ∈ c.tokens,
      strongCountT h (ext.nodes ++ c.nodes) (ext.tokens ++ c.tokens) tid = 1 →
      tid ∉ (c.gc h ext).tokens := by
    intro tid htid hcount hin
    have h2 := List.mem_filter.mp hin
    rw [decide_eq_true_eq] at h2
    have hmono : slotRefCount h (ext.nodes ++ (c.gc h ext).nodes) (.token tid)
        ≤ slotRefCount h (ext.nodes ++ c.nodes) (.token tid) := by
      refine slotRefCount_mono h ?_ _
      intro x hx
      rcases List.mem_append.mp hx with hx1 | hx1
      · exact List.mem_append.mpr (Or.inl hx1)
      · exact List.mem_append.mpr (Or.inr (hsubtable x hx1))
    have hle : strongCountT h (ext.nodes ++ (c.gc h ext).nodes)
        (ext.tokens ++ c.tokens) tid
        ≤ strongCountT h (ext.nodes ++ c.nodes) (ext.tokens ++ c.tokens) tid := by
      unfold strongCountT
      omega
    have h3 : 1 < strongCountT h (ext.nodes ++ (c.gc h ext).nodes)
        (ext.tokens ++ c.tokens) tid := h2.2
    omega
  refine ⟨hmain, htok, ?_, ?_, ?_⟩
  · intro nid hreach
    refine reachSet_mono h ?_ nid hreach
    intro x hx
    exact List.mem_append.mpr (Or.inl hx)
  · intro nid hmem hcount hlt kind cs heq
    rcases cacheNode_ret (c.gc h ext) h kind cs with hr | hr
    · rw [heq] at hr
      exact hmain nid hmem hcount hr
    · rw [heq] at hr
      omega
  · intro tid hmem hcount hlt kind text heq
    rcases cacheToken_ret (c.gc h ext) h kind text with hr | hr
    · rw [heq] at hr
      exact htok tid hmem hcount hr
    · rw [heq] at hr
      omega

/-- C2 witness: the theorem applied to a concrete heap and cache: node 0 and
token 0 are interned but referenced only by the cache, so after `gc()` they
are gone and a fresh `node` call cannot return the old entry 0. -/
theorem C2_gc_reclamation_witness :
    0 ∉ ((NodeCache.mk [0] [0]).gc
        ⟨[⟨5, 0, []⟩], [⟨7, ['a']⟩]⟩ ⟨[], []⟩).nodes
  ∧ 0 ∉ ((NodeCache.mk [0] [0]).gc
        ⟨[⟨5, 0, []⟩], [⟨7, ['a']⟩]⟩ ⟨[], []⟩).tokens :=
  ⟨(C2_gc_reclamation ⟨[⟨5, 0, []⟩], [⟨7, ['a']⟩]⟩ ⟨[], []⟩
      (NodeCache.mk [0] [0])).1 0 (by decide) (by decide),
   (C2_gc_reclamation ⟨[⟨5, 0, []⟩], [⟨7, ['a']⟩]⟩ ⟨[], []⟩
      (NodeCache.mk [0] [0])).2.1 0 (by decide) (by decide)⟩

lemma serRef_eta (h : Heap) (fuel : Nat) :
    (fun c => match c with
      | ChildRef.token t => (h.tokens.get? t).map serTok
      | ChildRef.node m => serNode h fuel m) = serRef h fuel := by
  funext c
  cases c <;> rfl

lemma serNode_succ (h : Heap) (fuel nid : Nat) :
    serNode h (fuel + 1) nid
      = match h.nodes.get? nid with
        | none => none
        | some nd =>
          match traverseSlots (serRef h fuel) nd.children with
          | none => none
          | some body => some ([1, nd.kind, nd.textLen, nd.children.length] ++ body) := by
  simp only [serNode, serRef_eta]

lemma traverseSlots_congr {f g : ChildRef → Option (List Nat)} :
    ∀ slots : List (Nat × ChildRef), (∀ s ∈ slots, f s.2 = g s.2) →
    traverseSlots f slots = traverseSlots g slots := by
  intro slots
  induction slots with
  | nil => intro _; rfl
  | cons s rest ih =>
    intro hpt
    simp only [traverseSlots, hpt s (by simp),
      ih (fun s2 hs2 => hpt s2 (by simp [hs2]))]

lemma get?_append_left {α : Type} {l l2 : List α} {n : Nat} (h : n < l.length) :
    (l ++ l2).get? n = l.get? n := List.get?_append h

lemma serNode_heap_ext {h h2 : Heap} (hwf : h.Wf) {e1 : List NodeData}
    {e2 : List TokenData} (hn : h2.nodes = h.nodes ++ e1)
    (ht : h2.tokens = h.tokens ++ e2) :
    ∀ (fuel a : Nat), a < h.nodes.length → serNode h2 fuel a = serNode h fuel a := by
  intro fuel
  induction fuel with
  | zero => intro a _; rfl
  | succ fuel ih =>
    intro a ha
    rw [serNode_succ, serNode_succ]
    have hget : h2.nodes.get? a = h.nodes.get? a := by
      rw [hn]; exact get?_append_left ha
    rw [hget]
    cases hga : h.nodes.get? a with
    | none => rfl
    | some nd =>
      have hslots : traverseSlots (serRef h2 fuel) nd.children
          = traverseSlots (serRef h fuel) nd.children := by
        refine traverseSlots_congr _ ?_
        intro s hs
        have hbounds := hwf a nd hga s hs
        cases hc : s.2 with
        | token t =>
          have htb : t < h.tokens.length := hbounds.2 t hc
          show (h2.tokens.get? t).map serTok = (h.tokens.get? t).map serTok
          rw [ht, get?_append_left htb]
        | node m =>
          have hmb : m < a := hbounds.1 m hc
          exact ih m (by omega)
      show (match traverseSlots (serRef h2 fuel) nd.children with
          | none => none
          | some body => some ([1, nd.kind, nd.textLen, nd.children.length] ++ body))
        = (match traverseSlots (serRef h fuel) nd.children with
          | none => none
          | some body => some ([1, nd.kind, nd.textLen, nd.children.length] ++ body))
      rw [hslots]

lemma serNode_fuel_robust {h : Heap} (hwf : h.Wf) :
    ∀ (a fuel1 fuel2 : Nat), a < fuel1 → a < fuel2 →
    serNode h fuel1 a = serNode h fuel2 a := by
  intro a
  induction a using Nat.strong_induction_on with
  | _ a ih =>
    intro fuel1 fuel2 hf1 hf2
    match fuel1, fuel2 with
    | f1 + 1, f2 + 1 =>
      rw [serNode_succ, serNode_succ]
      cases hga : h.nodes.get? a with
      | none => rfl
      | some nd =>
        have hslots : traverseSlots (serRef h f1) nd.children
            = traverseSlots (serRef h f2) nd.children := by
          refine traverseSlots_congr _ ?_
          intro s hs
          have hbounds := hwf a nd hga s hs
          cases hc : s.2 with
          | token t => rfl
          | node m =>
            have hmb : m < a := hbounds.1 m hc
            exact ih m hmb f1 f2 (by omega) (by omega)
        show (match traverseSlots (serRef h f1) nd.children with
            | none => none
            | some body => some ([1, nd.kind, nd.textLen, nd.children.length] ++ body))
          = (match traverseSlots (serRef h f2) nd.children with
            | none => none
            | some body => some ([1, nd.kind, nd.textLen, nd.children.length] ++ body))
        rw [hslots]

lemma traverseSlots_isSome {f : ChildRef → Option (List Nat)} :
    ∀ slots : List (Nat × ChildRef), (∀ s ∈ slots, (f s.2).isSome) →
    (traverseSlots f slots).isSome := by
  intro slots
  induction slots with
  | nil => intro _; rfl
  | cons s rest ih =>
    intro hpt
    have h1 := hpt s (by simp)
    have h2 := ih (fun s2 hs2 => hpt s2 (by simp [hs2]))
    simp only [traverseSlots]
    cases hf : f s.2 with
    | none => rw [hf] at h1; exact absurd h1 (by simp)
    | some e =>
      cases htr : traverseSlots f rest with
      | none => rw [htr] at h2; exact absurd h2 (by simp)
      | some r => rfl

lemma serNode_isSome {h : Heap} (hwf : h.Wf) :
    ∀ (a fuel : Nat), a < h.nodes.length → a < fuel →
    (serNode h fuel a).isSome := by
  intro a
  induction a using Nat.strong_induction_on with
  | _ a ih =>
    intro fuel ha hf
    match fuel with
    | f + 1 =>
      rw [serNode_succ]
      cases hga : h.nodes.get? a with
      | none =>
        have : a < h.nodes.length := ha
        rw [List.get?_eq_none] at hga
        omega
      | some nd =>
        have hsl : (traverseSlots (serRef h f) nd.children).isSome := by
          refine traverseSlots_isSome _ ?_
          intro s hs
          have hbounds := hwf a nd hga s hs
          cases hc : s.2 with
          | token t =>
            have htb : t < h.tokens.length := hbounds.2 t hc
            show ((h.tokens.get? t).map serTok).isSome
            rw [List.get?_eq_get htb]
            rfl
          | node m =>
            have hmb : m < a := hbounds.1 m hc
            exact ih m hmb f (by omega) (by omega)
        cases htr : traverseSlots (serRef h f) nd.children with
        | none => rw [htr] at hsl; exact absurd hsl (by simp)
        | some body =>
          show (match traverseSlots (serRef h f) nd.children with
              | none => none
              | some body => some ([1, nd.kind, nd.textLen,
                  nd.children.length] ++ body)).isSome = true
          rw [htr]
          rfl

lemma serRef_isSome {h : Heap} (hwf : h.Wf) {r : ChildRef}
    (hv : refValid h r) : (serRef h h.nodes.length r).isSome := by
  cases r with
  | token t =>
    show ((h.tokens.get? t).map serTok).isSome
    rw [List.get?_eq_get hv]
    rfl
  | node m => exact serNode_isSome hwf m h.nodes.length hv hv

lemma serNode_shape {h : Heap} {fuel a : Nat} {l : List Nat}
    (hs : serNode h fuel a = some l) :
    ∃ nd rest, h.nodes.get? a = some nd
      ∧ l = 1 :: nd.kind :: nd.textLen :: nd.children.length :: rest := by
  match fuel with
  | 0 => exact absurd hs (by simp [serNode])
  | f + 1 =>
    rw [serNode_succ] at hs
    cases hga : h.nodes.get? a with
    | none => rw [hga] at hs; exact absurd hs (by simp)
    | some nd =>
      rw [hga] at hs
      have hs2 : (match traverseSlots (serRef h f) nd.children with
          | none => none
          | some body => some ([1, nd.kind, nd.textLen,
              nd.children.length] ++ body)) = some l := hs
      cases htr : traverseSlots (serRef h f) nd.children with
      | none => rw [htr] at hs2; exact absurd hs2 (by simp)
      | some body =>
        rw [htr] at hs2
        have hs3 : some ([1, nd.kind, nd.textLen, nd.children.length] ++ body)
            = some l := hs2
        refine ⟨nd, body, rfl, ?_⟩
        rw [← Option.some.inj hs3]
        rfl

lemma serTok_textLen {td1 td2 : TokenData} (heq : serTok td1 = serTok td2) :
    td1.text.length = td2.text.length := by
  simp only [serTok, List.cons_append, List.nil_append, List.cons.injEq] at heq
  tauto

lemma ser_textLen {h : Heap} {fuel : Nat} {r1 r2 : ChildRef}
    (hsome : (serRef h fuel r1).isSome)
    (heq : serRef h fuel r1 = serRef h fuel r2) :
    h.refTextLen r1 = h.refTextLen r2 := by
  obtain ⟨l, hl⟩ := Option.isSome_iff_exists.mp hsome
  have hl2 : serRef h fuel r2 = some l := by rw [← heq, hl]
  cases r1 with
  | token t1 =>
    have hm1 : (h.tokens.get? t1).map serTok = some l := hl
    cases hg1 : h.tokens.get? t1 with
    | none => rw [hg1] at hm1; exact absurd hm1 (by simp)
    | some td1 =>
      rw [hg1] at hm1
      have hld : l = serTok td1 := (Option.some.inj hm1).symm
      cases r2 with
      | token t2 =>
        have hm2 : (h.tokens.get? t2).map serTok = some l := hl2
        cases hg2 : h.tokens.get? t2 with
        | none => rw [hg2] at hm2; exact absurd hm2 (by simp)
        | some td2 =>
          rw [hg2] at hm2
          have hld2 : l = serTok td2 := (Option.some.inj hm2).symm
          show (h.tokens.getD t1 ⟨0, []⟩).text.length
            = (h.tokens.getD t2 ⟨0, []⟩).text.length
          rw [getD_of_get?_eq_some hg1, getD_of_get?_eq_some hg2]
          exact serTok_textLen (by rw [← hld, hld2])
      | node m2 =>
        obtain ⟨nd2, rest2, _, hshape⟩ := serNode_shape hl2
        rw [hld] at hshape
        simp [serTok, List.cons_append] at hshape
  | node m1 =>
    obtain ⟨nd1, rest1, hg1, hshape1⟩ := serNode_shape hl
    cases r2 with
    | token t2 =>
      have hm2 : (h.tokens.get? t2).map serTok = some l := hl2
      cases hg2 : h.tokens.get? t2 with
      | none => rw [hg2] at hm2; exact absurd hm2 (by simp)
      | some td2 =>
        rw [hg2] at hm2
        have hld2 : l = serTok td2 := (Option.some.inj hm2).symm
        rw [hld2] at hshape1
        simp [serTok, List.cons_append] at hshape1
    | node m2 =>
      obtain ⟨nd2, rest2, hg2, hshape2⟩ := serNode_shape hl2
      rw [hshape1] at hshape2
      simp only [List.cons.injEq] at hshape2
      show (h.nodes.getD m1 dummyNode).textLen = (h.nodes.getD m2 dummyNode).textLen
      rw [getD_of_get?_eq_some hg1, getD_of_get?_eq_some hg2]
      exact hshape2.2.2.1

lemma refTextLen_ext {h h2 : Heap} {e1 : List NodeData} {e2 : List TokenData}
    (hn : h2.nodes = h.nodes ++ e1) (ht : h2.tokens = h.tokens ++ e2)
    {r : ChildRef} (hv : refValid h r) : h2.refTextLen r = h.refTextLen r := by
  cases r with
  | node m =>
    show (h2.nodes.getD m dummyNode).textLen = (h.nodes.getD m dummyNode).textLen
    rw [List.getD_eq_getElem?_getD, List.getD_eq_getElem?_getD,
      ← List.get?_eq_getElem?, ← List.get?_eq_getElem?, hn, get?_append_left hv]
  | token t =>
    show (h2.tokens.getD t ⟨0, []⟩).text.length = (h.tokens.getD t ⟨0, []⟩).text.length
    rw [List.getD_eq_getElem?_getD, List.getD_eq_getElem?_getD,
      ← List.get?_eq_getElem?, ← List.get?_eq_getElem?, ht, get?_append_left hv]

lemma newChildrenH_ext {h h2 : Heap} {e1 : List NodeData} {e2 : List TokenData}
    (hn : h2.nodes = h.nodes ++ e1) (ht : h2.tokens = h.tokens ++ e2) :
    ∀ (cs : List ChildRef), (∀ r ∈ cs, refValid h r) → ∀ acc : Nat,
    newChildrenH h2 acc cs = newChildrenH h acc cs := by
  intro cs
  induction cs with
  | nil => intro _ acc; rfl
  | cons c rest ih =>
    intro hv acc
    simp only [newChildrenH]
    rw [refTextLen_ext hn ht (hv c (by simp)),
      ih (fun r hr => hv r (by simp [hr]))]

lemma newChildrenH_snd_map (h : Heap) (cs : List ChildRef) : ∀ acc : Nat,
    (newChildrenH h acc cs).2.map Prod.snd = cs := by
  induction cs with
  | nil => intro acc; rfl
  | cons c rest ih => intro acc; simp [newChildrenH, ih]

lemma newNode_nodes (h : Heap) (kind : SyntaxKind) (cs : List ChildRef) :
    (h.newNode kind cs).1.nodes
      = h.nodes ++ [⟨kind, (newChildrenH h 0 cs).1, (newChildrenH h 0 cs).2⟩] := rfl

lemma newNode_tokens (h : Heap) (kind : SyntaxKind) (cs : List ChildRef) :
    (h.newNode kind cs).1.tokens = h.tokens := rfl

lemma newNode_wf {h : Heap} (hwf : h.Wf) {kind : SyntaxKind}
    {cs : List ChildRef} (hv : ∀ r ∈ cs, refValid h r) :
    (h.newNode kind cs).1.Wf := by
  intro nid nd hget s hs
  rw [newNode_nodes] at hget
  by_cases hlt : nid < h.nodes.length
  · rw [get?_append_left hlt] at hget
    have hb := hwf nid nd hget s hs
    refine ⟨hb.1, ?_⟩
    intro t hc
    rw [newNode_tokens]
    exact hb.2 t hc
  · obtain ⟨hlt2, _⟩ := List.get?_eq_some.mp hget
    have hnid : nid = h.nodes.length := by
      simp only [List.length_append, List.length_singleton] at hlt2
      omega
    subst hnid
    have hnd : nd = ⟨kind, (newChildrenH h 0 cs).1, (newChildrenH h 0 cs).2⟩ := by
      rw [List.get?_concat_length] at hget
      exact (Option.some.inj hget).symm
    subst hnd
    have hsnd : s.2 ∈ cs := by
      rw [← newChildrenH_snd_map h cs 0]
      exact List.mem_map_of_mem Prod.snd hs
    have hvs := hv s.2 hsnd
    constructor
    · intro m hc
      rw [hc] at hvs
      exact hvs
    · intro t hc
      rw [hc] at hvs
      rw [newNode_tokens]
      exact hvs

lemma find?_congr_on {α : Type} {p q : α → Bool} : ∀ l : List α,
    (∀ x ∈ l, p x = q x) → l.find? p = l.find? q := by
  intro l
  induction l with
  | nil => intro _; rfl
  | cons x t ih =>
    intro hpt
    have hx := hpt x (by simp)
    by_cases hq : q x = true
    · rw [List.find?_cons_of_pos _ (by rw [hx]; exact hq),
        List.find?_cons_of_pos _ hq]
    · rw [List.find?_cons_of_neg _ (by rw [hx]; simpa using hq),
        List.find?_cons_of_neg _ (by simpa using hq)]
      exact ih (fun y hy => hpt y (by simp [hy]))

lemma find?_append_of_none {α : Type} {p : α → Bool} : ∀ l1 l2 : List α,
    l1.find? p = none → (l1 ++ l2).find? p = l2.find? p := by
  intro l1
  induction l1 with
  | nil => intro l2 _; rfl
  | cons x t ih =>
    intro l2 hnone
    by_cases hp : p x = true
    · rw [List.find?_cons_of_pos _ hp] at hnone
      exact absurd hnone (by simp)
    · rw [List.find?_cons_of_neg _ (by simpa using hp)] at hnone
      rw [List.cons_append, List.find?_cons_of_neg _ (by simpa using hp)]
      exact ih l2 hnone

lemma newNode_len (h : Heap) (kind : SyntaxKind) (cs : List ChildRef) :
    (h.newNode kind cs).1.nodes.length = h.nodes.length + 1 := by
  rw [newNode_nodes]
  simp

lemma serRef_reduce {h h2 : Heap} (hwf : h.Wf) {e1 : List NodeData}
    {e2 : List TokenData} (hn : h2.nodes = h.nodes ++ e1)
    (ht : h2.tokens = h.tokens ++ e2) {r : ChildRef} (hv : refValid h r)
    (fuel : Nat) (hfuel : h.nodes.length ≤ fuel) :
    serRef h2 fuel r = serRef h h.nodes.length r := by
  cases r with
  | token t =>
    show (h2.tokens.get? t).map serTok = (h.tokens.get? t).map serTok
    rw [ht, get?_append_left hv]
  | node m =>
    show serNode h2 fuel m = serNode h h.nodes.length m
    rw [serNode_heap_ext hwf hn ht fuel m hv]
    exact serNode_fuel_robust hwf m fuel h.nodes.length (by
      have : m < h.nodes.length := hv
      omega) hv

lemma slots_eq (h : Heap) (F : Nat) {cs1 cs2 : List ChildRef}
    (hfa : List.Forall₂ (fun r1 r2 => serRef h F r1 = serRef h F r2
      ∧ h.refTextLen r1 = h.refTextLen r2) cs1 cs2) :
    ∀ acc : Nat, (newChildrenH h acc cs1).1 = (newChildrenH h acc cs2).1
      ∧ traverseSlots (serRef h F) (newChildrenH h acc cs1).2
        = traverseSlots (serRef h F) (newChildrenH h acc cs2).2 := by
  induction hfa with
  | nil => intro acc; exact ⟨rfl, rfl⟩
  | @cons a b l1 l2 hab htail ih =>
    intro acc
    obtain ⟨hser, hlen⟩ := hab
    constructor
    · simp only [newChildrenH]
      rw [hlen]
      exact (ih (acc + h.refTextLen b)).1
    · simp only [newChildrenH, traverseSlots]
      rw [hser, hlen, (ih (acc + h.refTextLen b)).2]

lemma cand_ser (h : Heap) (kind : SyntaxKind) (cs : List ChildRef) :
    serNode (h.newNode kind cs).1 (h.nodes.length + 1) (h.newNode kind cs).2
      = (traverseSlots (serRef (h.newNode kind cs).1 h.nodes.length)
          (newChildrenH h 0 cs).2).map
          (fun body => [1, kind, (newChildrenH h 0 cs).1, cs.length] ++ body) := by
  rw [serNode_succ]
  have hget : (h.newNode kind cs).1.nodes.get? (h.newNode kind cs).2
      = some ⟨kind, (newChildrenH h 0 cs).1, (newChildrenH h 0 cs).2⟩ := by
    show (h.nodes ++ [_]).get? h.nodes.length = _
    exact List.get?_concat_length _ _
  rw [hget]
  show (match traverseSlots (serRef (h.newNode kind cs).1 h.nodes.length)
      (newChildrenH h 0 cs).2 with
    | none => none
    | some body => some ([1, kind, (newChildrenH h 0 cs).1,
        (newChildrenH h 0 cs).2.length] ++ body)) = _
  rw [newChildrenH_length]
  cases htr : traverseSlots (serRef (h.newNode kind cs).1 h.nodes.length)
      (newChildrenH h 0 cs).2 with
  | none => rfl
  | some body => rfl

lemma forall2_with_textLen {h : Heap} (hwf : h.Wf) : ∀ {cs1 cs2 : List ChildRef},
    (∀ r ∈ cs1, refValid h r) →
    List.Forall₂ (fun r1 r2 => serRef h h.nodes.length r1
      = serRef h h.nodes.length r2) cs1 cs2 →
    List.Forall₂ (fun r1 r2 => serRef h h.nodes.length r1
        = serRef h h.nodes.length r2
      ∧ h.refTextLen r1 = h.refTextLen r2) cs1 cs2 := by
  intro cs1
  induction cs1 with
  | nil =>
    intro cs2 _ hfa
    cases hfa
    exact .nil
  | cons a t ih =>
    intro cs2 hv hfa
    cases hfa with
    | cons hab htail =>
      exact .cons
        ⟨hab, ser_textLen (serRef_isSome hwf (hv a (by simp))) hab⟩
        (ih (fun r hr => hv r (by simp [hr])) htail)

lemma cands_eq (h : Heap) (hwf : h.Wf) (kind : SyntaxKind)
    (cs1 cs2 : List ChildRef)
    (hv1 : ∀ r ∈ cs1, refValid h r) (hv2 : ∀ r ∈ cs2, refValid h r)
    (heqv : List.Forall₂ (fun r1 r2 =>
      serRef h h.nodes.length r1 = serRef h h.nodes.length r2) cs1 cs2) :
    serNode ((h.newNode kind cs1).1.newNode kind cs2).1
        ((h.newNode kind cs1).1.nodes.length + 1)
        ((h.newNode kind cs1).1.newNode kind cs2).2
      = serNode (h.newNode kind cs1).1 (h.nodes.length + 1)
          (h.newNode kind cs1).2 := by
  have hext1n := newNode_nodes h kind cs1
  have hext1t : (h.newNode kind cs1).1.tokens = h.tokens ++ [] := by
    rw [newNode_tokens]
    simp
  have hext2n : ((h.newNode kind cs1).1.newNode kind cs2).1.nodes
      = h.nodes ++ ([⟨kind, (newChildrenH h 0 cs1).1, (newChildrenH h 0 cs1).2⟩]
        ++ [⟨kind, (newChildrenH (h.newNode kind cs1).1 0 cs2).1,
             (newChildrenH (h.newNode kind cs1).1 0 cs2).2⟩]) := by
    rw [newNode_nodes, newNode_nodes, List.append_assoc]
  have hext2t : ((h.newNode kind cs1).1.newNode kind cs2).1.tokens
      = h.tokens ++ [] := by
    rw [newNode_tokens, newNode_tokens]
    simp
  rw [cand_ser, cand_ser]
  have hch2 : newChildrenH (h.newNode kind cs1).1 0 cs2 = newChildrenH h 0 cs2 :=
    newChildrenH_ext hext1n hext1t cs2 hv2 0
  rw [hch2] at hext2n ⊢
  have htr2 : traverseSlots
      (serRef ((h.newNode kind cs1).1.newNode kind cs2).1
        (h.newNode kind cs1).1.nodes.length)
      (newChildrenH h 0 cs2).2
      = traverseSlots (serRef h h.nodes.length) (newChildrenH h 0 cs2).2 := by
    refine traverseSlots_congr _ ?_
    intro s hs
    have hsnd : s.2 ∈ cs2 := by
      rw [← newChildrenH_snd_map h cs2 0]
      exact List.mem_map_of_mem Prod.snd hs
    refine serRef_reduce hwf hext2n hext2t (hv2 s.2 hsnd) _ ?_
    rw [newNode_len]
    omega
  have htr1 : traverseSlots (serRef (h.newNode kind cs1).1 h.nodes.length)
      (newChildrenH h 0 cs1).2
      = traverseSlots (serRef h h.nodes.length) (newChildrenH h 0 cs1).2 := by
    refine traverseSlots_congr _ ?_
    intro s hs
    have hsnd : s.2 ∈ cs1 := by
      rw [← newChildrenH_snd_map h cs1 0]
      exact List.mem_map_of_mem Prod.snd hs
    exact serRef_reduce hwf hext1n hext1t (hv1 s.2 hsnd) _ (le_refl _)
  rw [htr2, htr1]
  obtain ⟨htot, htrav⟩ :=
    slots_eq h h.nodes.length (forall2_with_textLen hwf hv1 heqv) 0
  rw [← htot, ← htrav, ← List.Forall₂.length_eq heqv]

lemma cacheNode_eq (c : NodeCache) (h : Heap) (kind : SyntaxKind)
    (cs : List ChildRef) (hle : cs.length ≤ 3) :
    c.node h kind cs
      = match c.nodes.find? (fun tid =>
          decide (serNode (h.newNode kind cs).1 (h.newNode kind cs).1.nodes.length tid
            = serNode (h.newNode kind cs).1 (h.newNode kind cs).1.nodes.length
                (h.newNode kind cs).2)) with
        | some tid => ((h.newNode kind cs).1, c, tid)
        | none => ((h.newNode kind cs).1,
            { c with nodes := c.nodes ++ [(h.newNode kind cs).2] },
            (h.newNode kind cs).2) := by
  have hunfold : c.node h kind cs
      = (if cs.length ≤ 3 then
          match c.nodes.find? (fun tid =>
            decide (serNode (h.newNode kind cs).1 (h.newNode kind cs).1.nodes.length tid
              = serNode (h.newNode kind cs).1 (h.newNode kind cs).1.nodes.length
                  (h.newNode kind cs).2)) with
          | some tid => ((h.newNode kind cs).1, c, tid)
          | none => ((h.newNode kind cs).1,
              { c with nodes := c.nodes ++ [(h.newNode kind cs).2] },
              (h.newNode kind cs).2)
        else ((h.newNode kind cs).1, c, (h.newNode kind cs).2)) := rfl
  rw [hunfold, if_pos hle]

lemma cacheNode_gt3 (c : NodeCache) (h : Heap) (kind : SyntaxKind)
    (cs : List ChildRef) (hgt : ¬ cs.length ≤ 3) :
    c.node h kind cs = ((h.newNode kind cs).1, c, (h.newNode kind cs).2) := by
  have hunfold : c.node h kind cs
      = (if cs.length ≤ 3 then
          match c.nodes.find? (fun tid =>
            decide (serNode (h.newNode kind cs).1 (h.newNode kind cs).1.nodes.length tid
              = serNode (h.newNode kind cs).1 (h.newNode kind cs).1.nodes.length
                  (h.newNode kind cs).2)) with
          | some tid => ((h.newNode kind cs).1, c, tid)
          | none => ((h.newNode kind cs).1,
              { c with nodes := c.nodes ++ [(h.newNode kind cs).2] },
              (h.newNode kind cs).2)
        else ((h.newNode kind cs).1, c, (h.newNode kind cs).2)) := rfl
  rw [hunfold, if_neg hgt]

/-- C4: interning behaviour of `NodeCache::node`.  With child count at or
below the threshold 3, two calls on the same cache whose child sequences are
structurally equal return the same shared allocation (the canonical instance
of the structural-equality class); with child count above 3 the call returns
the freshly built allocation and leaves the cache unchanged. -/
theorem C4_small_node_interning (h : Heap) (c : NodeCache) (kind : SyntaxKind)
    (cs1 cs2 : List ChildRef)
    (hwf : h.Wf)
    (hv1 : ∀ r ∈ cs1, refValid h r)
    (hv2 : ∀ r ∈ cs2, refValid h r)
    (hcv : ∀ tid ∈ c.nodes, tid < h.nodes.length)
    (hle : cs1.length ≤ 3)
    (heqv : List.Forall₂ (fun r1 r2 =>
      serRef h h.nodes.length r1 = serRef h h.nodes.length r2) cs1 cs2) :
    ((c.node h kind cs1).2.1.node (c.node h kind cs1).1 kind cs2).2.2
        = (c.node h kind cs1).2.2
  ∧ (∀ cs : List ChildRef, 3 < cs.length →
      (c.node h kind cs).2.2 = h.nodes.length ∧ (c.node h kind cs).2.1 = c) := by
  have hle2 : cs2.length ≤ 3 := by
    rw [← List.Forall₂.length_eq heqv]
    exact hle
  have hwf1 : (h.newNode kind cs1).1.Wf := newNode_wf hwf hv1
  have hext1n := newNode_nodes h kind cs1
  have hext1t : (h.newNode kind cs1).1.tokens = h.tokens ++ [] := by
    rw [newNode_tokens]
    simp
  have hext21n := newNode_nodes (h.newNode kind cs1).1 kind cs2
  have hext21t : ((h.newNode kind cs1).1.newNode kind cs2).1.tokens
      = (h.newNode kind cs1).1.tokens ++ [] := by
    rw [newNode_tokens]
    simp
  have hext2n : ((h.newNode kind cs1).1.newNode kind cs2).1.nodes
      = h.nodes ++ ([⟨kind, (newChildrenH h 0 cs1).1, (newChildrenH h 0 cs1).2⟩]
        ++ [⟨kind, (newChildrenH (h.newNode kind cs1).1 0 cs2).1,
             (newChildrenH (h.newNode kind cs1).1 0 cs2).2⟩]) := by
    rw [hext21n, hext1n, List.append_assoc]
  have hext2t : ((h.newNode kind cs1).1.newNode kind cs2).1.tokens
      = h.tokens ++ [] := by
    rw [newNode_tokens, newNode_tokens]
    simp
  have hfuel1 : (h.newNode kind cs1).1.nodes.length = h.nodes.length + 1 :=
    newNode_len h kind cs1
  have hfuel2 : ((h.newNode kind cs1).1.newNode kind cs2).1.nodes.length
      = (h.newNode kind cs1).1.nodes.length + 1 :=
    newNode_len (h.newNode kind cs1).1 kind cs2
  have hV12 : serNode ((h.newNode kind cs1).1.newNode kind cs2).1
        ((h.newNode kind cs1).1.newNode kind cs2).1.nodes.length
        ((h.newNode kind cs1).1.newNode kind cs2).2
      = serNode (h.newNode kind cs1).1 (h.newNode kind cs1).1.nodes.length
          (h.newNode kind cs1).2 := by
    rw [hfuel2, cands_eq h hwf kind cs1 cs2 hv1 hv2 heqv, hfuel1]
  have hpt : ∀ tid0 ∈ c.nodes,
      (fun tid =>
        decide (serNode ((h.newNode kind cs1).1.newNode kind cs2).1
            ((h.newNode kind cs1).1.newNode kind cs2).1.nodes.length tid
          = serNode ((h.newNode kind cs1).1.newNode kind cs2).1
              ((h.newNode kind cs1).1.newNode kind cs2).1.nodes.length
              ((h.newNode kind cs1).1.newNode kind cs2).2)) tid0
      = (fun tid =>
        decide (serNode (h.newNode kind cs1).1
            (h.newNode kind cs1).1.nodes.length tid
          = serNode (h.newNode kind cs1).1 (h.newNode kind cs1).1.nodes.length
              (h.newNode kind cs1).2)) tid0 := by
    intro tid0 htid0
    have htlt : tid0 < h.nodes.length := hcv tid0 htid0
    have hS2 : serNode ((h.newNode kind cs1).1.newNode kind cs2).1
        ((h.newNode kind cs1).1.newNode kind cs2).1.nodes.length tid0
        = serNode h h.nodes.length tid0 := by
      rw [serNode_heap_ext hwf hext2n hext2t _ tid0 htlt]
      exact serNode_fuel_robust hwf tid0 _ _ (by omega) htlt
    have hS1 : serNode (h.newNode kind cs1).1
        (h.newNode kind cs1).1.nodes.length tid0
        = serNode h h.nodes.length tid0 := by
      rw [serNode_heap_ext hwf hext1n hext1t _ tid0 htlt]
      exact serNode_fuel_robust hwf tid0 _ _ (by omega) htlt
    show decide _ = decide _
    rw [hS2, hS1, hV12]
  constructor
  · rw [cacheNode_eq c h kind cs1 hle]
    cases hf1 : c.nodes.find? (fun tid =>
        decide (serNode (h.newNode kind cs1).1
            (h.newNode kind cs1).1.nodes.length tid
          = serNode (h.newNode kind cs1).1 (h.newNode kind cs1).1.nodes.length
              (h.newNode kind cs1).2)) with
    | some tid =>
      show (c.node (h.newNode kind cs1).1 kind cs2).2.2 = tid
      rw [cacheNode_eq c (h.newNode kind cs1).1 kind cs2 hle2,
        find?_congr_on c.nodes hpt, hf1]
    | none =>
      show (NodeCache.node { c with nodes := c.nodes ++ [(h.newNode kind cs1).2] }
          (h.newNode kind cs1).1 kind cs2).2.2 = (h.newNode kind cs1).2
      rw [cacheNode_eq _ (h.newNode kind cs1).1 kind cs2 hle2]
      have hcn : ({ c with nodes := c.nodes ++ [(h.newNode kind cs1).2] } :
          NodeCache).nodes = c.nodes ++ [(h.newNode kind cs1).2] := rfl
      rw [hcn]
      have hnone2 : c.nodes.find? (fun tid =>
          decide (serNode ((h.newNode kind cs1).1.newNode kind cs2).1
              ((h.newNode kind cs1).1.newNode kind cs2).1.nodes.length tid
            = serNode ((h.newNode kind cs1).1.newNode kind cs2).1
                ((h.newNode kind cs1).1.newNode kind cs2).1.nodes.length
                ((h.newNode kind cs1).1.newNode kind cs2).2)) = none := by
        rw [find?_congr_on c.nodes hpt, hf1]
      rw [find?_append_of_none _ _ hnone2]
      have hP2A1 : decide (serNode ((h.newNode kind cs1).1.newNode kind cs2).1
              ((h.newNode kind cs1).1.newNode kind cs2).1.nodes.length
              (h.newNode kind cs1).2
            = serNode ((h.newNode kind cs1).1.newNode kind cs2).1
                ((h.newNode kind cs1).1.newNode kind cs2).1.nodes.length
                ((h.newNode kind cs1).1.newNode kind cs2).2) = true := by
        rw [decide_eq_true_eq]
        have hA1 : serNode ((h.newNode kind cs1).1.newNode kind cs2).1
            ((h.newNode kind cs1).1.newNode kind cs2).1.nodes.length
            (h.newNode kind cs1).2
            = serNode (h.newNode kind cs1).1
                (h.newNode kind cs1).1.nodes.length (h.newNode kind cs1).2 := by
          have hvalt : (h.newNode kind cs1).2 < (h.newNode kind cs1).1.nodes.length := by
            rw [hfuel1]
            show h.nodes.length < h.nodes.length + 1
            omega
          rw [serNode_heap_ext hwf1 hext21n hext21t _ _ hvalt]
          exact serNode_fuel_robust hwf1 _ _ _ (by omega) hvalt
        rw [hA1, hV12]
      have hfind : List.find? (fun tid =>
          decide (serNode ((h.newNode kind cs1).1.newNode kind cs2).1
              ((h.newNode kind cs1).1.newNode kind cs2).1.nodes.length tid
            = serNode ((h.newNode kind cs1).1.newNode kind cs2).1
                ((h.newNode kind cs1).1.newNode kind cs2).1.nodes.length
                ((h.newNode kind cs1).1.newNode kind cs2).2))
          [(h.newNode kind cs1).2] = some (h.newNode kind cs1).2 := by
        simp only [List.find?]
        rw [hP2A1]
      rw [hfind]
  · intro cs hgt
    rw [cacheNode_gt3 c h kind cs (by omega)]
    exact ⟨rfl, rfl⟩

/-- C4 witness: the theorem applied to a concrete cache and heap: interning
the one-token node `[token 0]` twice through the same cache yields the same
allocation index both times. -/
theorem C4_small_node_interning_witness :
    ((NodeCache.node ⟨[], []⟩ ⟨[], [⟨7, ['a']⟩]⟩ 9 [.token 0]).2.1.node
        (NodeCache.node ⟨[], []⟩ ⟨[], [⟨7, ['a']⟩]⟩ 9 [.token 0]).1 9
        [.token 0]).2.2
      = (NodeCache.node ⟨[], []⟩ ⟨[], [⟨7, ['a']⟩]⟩ 9 [.token 0]).2.2 :=
  (C4_small_node_interning ⟨[], [⟨7, ['a']⟩]⟩ ⟨[], []⟩ 9 [.token 0] [.token 0]
    (by intro nid nd hget s hs; simp at hget)
    (by intro r hr; simp at hr; rw [hr]; show (0 : Nat) < 1; omega)
    (by intro r hr; simp at hr; rw [hr]; show (0 : Nat) < 1; omega)
    (by intro tid htid; simp at htid)
    (by decide)
    (.cons rfl .nil)).1
